import Mathlib

/-!
# Playground: primitive operations and Person / Employee records

A shallow embedding of `go/src/playground/g004_type.go` and
`go/src/playground/g010_struct.go`.

* A Go `string` is an immutable sequence of bytes, so it is a `List Byte`.
* A Go `int` is a 64-bit two's-complement integer: values are `Int`s in
  `[minInt, maxInt]` and arithmetic wraps through `wrapInt`.
* A pointer (`*Person`, `*Employee`, `*Address`) is an `Option`: `none` is `nil`,
  `some v` is a reference to a cell holding `v`.  A function that writes through
  a pointer returns the contents of the cell after the call.
* A run-time panic is an `Except.error`.
* A `float64` is an IEEE 754 binary64 value (`Float64`): a finite value is the
  rational number it denotes, and every operation rounds its exact result to the
  nearest binary64 value, ties to even.  The Go specification lets a compiler
  fuse `x*y + z` into a single rounding (as the arm64 compiler does); the flag
  `fused` selects that.  Converting an out-of-range `float64` to `int` has an
  implementation-dependent result, supplied by the parameter `impl`.
-/

namespace Playground

/-! ## Primitive types -/

/-- One byte. -/
abbrev Byte := Fin 256

/-- Go `string`: a sequence of bytes (not necessarily valid UTF-8). -/
abbrev GoString := List Byte

/-- Bytes of a string literal whose characters are all ASCII. -/
def ascii (s : String) : GoString :=
  s.toList.map (fun c => Fin.ofNat c.toNat)

/-- Smallest value of Go `int` on a 64-bit platform. -/
def minInt : Int := -9223372036854775808

/-- Largest value of Go `int` on a 64-bit platform. -/
def maxInt : Int := 9223372036854775807

/-- Values representable in a Go `int`. -/
def IsInt (n : Int) : Prop := minInt ≤ n ∧ n ≤ maxInt

instance (n : Int) : Decidable (IsInt n) := by
  unfold IsInt; infer_instance

/-- Two's-complement wrap-around of an exact integer result into Go `int`. -/
def wrapInt (n : Int) : Int :=
  (n + 9223372036854775808) % 18446744073709551616 - 9223372036854775808

/-- Run-time panics of the Go runtime. -/
inductive Panic where
  | nilDereference
  | integerDivideByZero
  | indexOutOfRange
  | sliceBoundsOutOfRange
  | explicit (msg : String)
deriving DecidableEq, Repr

/-- Go `error` values built by `errors.New`. -/
inductive GoError where
  | errorString (msg : String)
deriving DecidableEq, Repr

/-- Reading or writing through a pointer: panics on `nil`. -/
def deref {α : Type} (p : Option α) : Except Panic α :=
  match p with
  | none => .error .nilDereference
  | some v => .ok v

/-! ## Person -/

/-- Go `type Person struct { First, Last string; Age int }`. -/
structure Person where
  First : GoString
  Last : GoString
  Age : Int
deriving DecidableEq, Repr

/-- The zero value `Person{}`. -/
def Person.zero : Person := { First := [], Last := [], Age := 0 }

/-- Go `NewPerson`: the pair `(Person, error)`, `none` standing for a `nil` error. -/
def NewPerson (first last : GoString) (age : Int) : Person × Option GoError :=
  if age < 0 then
    (Person.zero, some (.errorString "age must be >= 0"))
  else
    ({ First := first, Last := last, Age := age }, none)

/-- Go `func (p Person) FullName() string`: the `switch` is tried top to bottom. -/
def Person.FullName (p : Person) : GoString :=
  if p.First = [] ∧ p.Last = [] then []
  else if p.First = [] then p.Last
  else if p.Last = [] then p.First
  else p.First ++ ascii " " ++ p.Last

/-- Go `func (p *Person) HaveBirthday()`: the cell behind `p` after the call. -/
def HaveBirthday (p : Option Person) : Except Panic (Option Person) :=
  if p = none then .ok p
  else do
    let v ← deref p
    pure (some { v with Age := wrapInt (v.Age + 1) })

/-- Go `ClonePerson`. -/
def ClonePerson (p : Person) : Person := p

/-- Go `EqualPerson`: struct comparison with `==`. -/
def EqualPerson (a b : Person) : Bool := decide (a = b)

/-! ## Address and Employee -/

/-- Go `type Address struct { City, Zip string }`. -/
structure Address where
  City : GoString
  Zip : GoString
deriving DecidableEq, Repr

/-- The zero value `Address{}`. -/
def Address.zero : Address := { City := [], Zip := [] }

/-- Go `type Employee struct { Person; ID, Dept string; Addr *Address }`. -/
structure Employee where
  Person : Playground.Person
  ID : GoString
  Dept : GoString
  Addr : Option Address
deriving DecidableEq, Repr

/-- The zero value `Employee{}`. -/
def Employee.zero : Employee :=
  { Person := Person.zero, ID := [], Dept := [], Addr := none }

/-- Promoted method: `e.FullName()` is `e.Person.FullName()`. -/
def Employee.FullName (e : Employee) : GoString := e.Person.FullName

/-- Go `func (e Employee) Label() string`; `%s` writes the bytes of its argument. -/
def Employee.Label (e : Employee) : GoString :=
  let name := e.FullName
  let name := if name = [] then ascii "(no name)" else name
  name ++ ascii "[" ++ e.ID ++ ascii "/" ++ e.Dept ++ ascii "]"

/-- Go `MoveTo`: the cell behind `e` after the call. -/
def MoveTo (e : Option Employee) (city zip : GoString) : Except Panic (Option Employee) :=
  if e = none then .ok e
  else do
    let v ← deref e
    let v := if v.Addr = none then { v with Addr := some Address.zero } else v
    let a ← deref v.Addr
    let a := { a with City := city }
    let a := { a with Zip := zip }
    pure (some { v with Addr := some a })

/-- Go `Rename`: the cell behind `e` after the call. -/
def Rename (e : Option Employee) (first last : GoString) : Except Panic (Option Employee) :=
  if e = none then .ok e
  else do
    let v ← deref e
    let v := { v with Person := { v.Person with First := first } }
    let v := { v with Person := { v.Person with Last := last } }
    pure (some v)

/-! ## Deduplication -/

/-- Body of the `for _, e := range in` loop of `UniqueByID`: `seen` holds the keys
of the map, `out` the slice built so far. -/
def uniqueLoop : List Employee → List GoString → List Employee → List Employee
  | [], _, out => out
  | e :: rest, seen, out =>
    if e.ID ∈ seen then uniqueLoop rest seen out
    else uniqueLoop rest (e.ID :: seen) (out ++ [e])

/-- Go `UniqueByID`. -/
def UniqueByID (xs : List Employee) : List Employee :=
  uniqueLoop xs [] []

/-- The elements `xs[i]` such that no `xs[j]` with `j < i` has the same ID, by
increasing `i`. -/
def firstOccurrences (xs : List Employee) : List Employee :=
  ((List.finRange xs.length).filter
    (fun i => decide (∀ j : Fin xs.length, j < i → (xs.get j).ID ≠ (xs.get i).ID))).map xs.get

/-! ## UTF-8, as package `unicode/utf8` decodes it -/

/-- Whether `lo ≤ b ≤ hi`. -/
def inRange (b : Byte) (lo hi : Nat) : Bool := decide (lo ≤ b.val ∧ b.val ≤ hi)

/-- Size of the UTF-8 encoding that starts `s`, as `utf8.DecodeRuneInString`
reports it, or `0` where it reports `(RuneError, 1)` (and for the empty string).
The second byte must lie in the accept range of the first one (`acceptRanges`),
later bytes in `0x80..0xBF`. -/
def decodeSize (s : GoString) : Nat :=
  match s with
  | [] => 0
  | b0 :: t =>
    if b0.val < 0x80 then 1
    else if b0.val < 0xC2 then 0
    else if b0.val < 0xE0 then
      match t with
      | b1 :: _ => if inRange b1 0x80 0xBF then 2 else 0
      | _ => 0
    else if b0.val < 0xF0 then
      let lo := if b0.val = 0xE0 then 0xA0 else 0x80
      let hi := if b0.val = 0xED then 0x9F else 0xBF
      match t with
      | b1 :: b2 :: _ => if inRange b1 lo hi && inRange b2 0x80 0xBF then 3 else 0
      | _ => 0
    else if b0.val < 0xF5 then
      let lo := if b0.val = 0xF0 then 0x90 else 0x80
      let hi := if b0.val = 0xF4 then 0x8F else 0xBF
      match t with
      | b1 :: b2 :: b3 :: _ =>
        if inRange b1 lo hi && inRange b2 0x80 0xBF && inRange b3 0x80 0xBF then 4 else 0
      | _ => 0
    else 0

/-- Loop of `utf8.ValidString`, bounded by the number of bytes left. -/
def validLoop : Nat → GoString → Bool
  | 0, s => decide (s = [])
  | fuel + 1, s =>
    match s with
    | [] => true
    | _ :: _ => decide (decodeSize s ≠ 0) && validLoop fuel (s.drop (decodeSize s))

/-- Go `utf8.ValidString`. -/
def validString (s : GoString) : Bool := validLoop s.length s

/-- UTF-8 encoding of U+FFFD, the replacement character. -/
def replacementChar : GoString := [0xEF, 0xBF, 0xBD]

/-- Loop of the JSON string encoder over the bytes of `s`: a byte at which no
valid encoding starts becomes U+FFFD and one byte is skipped; a valid encoding is
kept. -/
def coerceLoop : Nat → GoString → GoString
  | 0, _ => []
  | fuel + 1, s =>
    match s with
    | [] => []
    | b :: t =>
      if decodeSize (b :: t) = 0 then replacementChar ++ coerceLoop fuel t
      else (b :: t).take (decodeSize (b :: t)) ++ coerceLoop fuel ((b :: t).drop (decodeSize (b :: t)))

/-- The string a JSON string written by `encoding/json` for `s` denotes: `s`
"coerced to valid UTF-8, replacing invalid bytes with the Unicode replacement
rune". -/
def toValidUTF8 (s : GoString) : GoString := coerceLoop s.length s

/-! ## JSON, as package `encoding/json` writes and reads it

`MarshalEmployee` and `UnmarshalEmployee` only call `json.Marshal` and
`json.Unmarshal`.  The bytes exchanged are represented by the JSON document they
denote; escaping inside string literals and white space are below this level. -/

/-- A JSON document.  `num n` is a number literal without fraction or exponent,
`real` any other number literal; `str s` holds the UTF-8 bytes of the string the
literal denotes. -/
inductive JSON where
  | null
  | bool (b : Bool)
  | num (n : Int)
  | real
  | str (s : GoString)
  | arr (items : List JSON)
  | obj (members : List (GoString × JSON))

/-- Go `error` values returned by `json.Unmarshal` for a well-formed document:
`*json.UnmarshalTypeError`, with the name of the Go field or type. -/
inductive JSONError where
  | unmarshalType (target : String)
deriving DecidableEq, Repr

/-- `json.Marshal` of a `string` field. -/
def encodeString (s : GoString) : JSON := .str (toValidUTF8 s)

/-- `json.Marshal` of an `Address`: fields `city` and `zip`, in declaration order. -/
def encodeAddress (a : Address) : JSON :=
  .obj [(ascii "city", encodeString a.City), (ascii "zip", encodeString a.Zip)]

/-- `json.Marshal` of an `Employee`: the fields of the embedded `Person` are
promoted (`first`, `last`, `age`), then `id`, `dept`, and `addr`, which
`omitempty` leaves out when the pointer is nil. -/
def encodeEmployee (e : Employee) : JSON :=
  .obj ([(ascii "first", encodeString e.Person.First),
         (ascii "last", encodeString e.Person.Last),
         (ascii "age", .num e.Person.Age),
         (ascii "id", encodeString e.ID),
         (ascii "dept", encodeString e.Dept)] ++
        (match e.Addr with
         | none => []
         | some a => [(ascii "addr", encodeAddress a)]))

/-- Go `MarshalEmployee`: `json.Marshal` has no failing case on this type. -/
def MarshalEmployee (e : Employee) : Except JSONError JSON :=
  .ok (encodeEmployee e)

/-- The field a key of a JSON object selects: the field whose name is the key,
else the first field whose name equals it under case folding.  `fold` stands for
the Unicode simple case folding of `encoding/json`. -/
def findField {F : Type} (fields : List F) (name : F → GoString)
    (fold : GoString → GoString) (key : GoString) : Option F :=
  match fields.find? (fun f => decide (name f = key)) with
  | some f => some f
  | none => fields.find? (fun f => decide (fold (name f) = fold key))

/-- Keeps the first error, as `decodeState.saveError` does. -/
def saveError (saved : Option JSONError) (err : Option JSONError) : Option JSONError :=
  match saved with
  | some e => some e
  | none => err

/-- Storing a JSON value into a `string` field: `null` leaves it unchanged. -/
def storeString (target : String) (cur : GoString) (v : JSON) : GoString × Option JSONError :=
  match v with
  | .null => (cur, none)
  | .str s => (s, none)
  | _ => (cur, some (.unmarshalType target))

/-- Storing a JSON value into an `int` field: the literal must be an integer in
the range of `int` (`strconv.ParseInt`). -/
def storeInt (target : String) (cur : Int) (v : JSON) : Int × Option JSONError :=
  match v with
  | .null => (cur, none)
  | .num n => if IsInt n then (n, none) else (cur, some (.unmarshalType target))
  | _ => (cur, some (.unmarshalType target))

/-- Fields of `Address` seen by `encoding/json`. -/
inductive AddressField where
  | city
  | zip
deriving DecidableEq, Repr

/-- JSON name of a field of `Address` (its struct tag). -/
def AddressField.name : AddressField → GoString
  | .city => ascii "city"
  | .zip => ascii "zip"

/-- One member of a JSON object decoded into an `Address`; an unknown key is
skipped. -/
def decodeAddressMember (fold : GoString → GoString) (st : Address × Option JSONError)
    (m : GoString × JSON) : Address × Option JSONError :=
  match findField [AddressField.city, AddressField.zip] AddressField.name fold m.1 with
  | none => st
  | some .city =>
    let r := storeString "Address.Addr.city" st.1.City m.2
    ({ st.1 with City := r.1 }, saveError st.2 r.2)
  | some .zip =>
    let r := storeString "Address.Addr.zip" st.1.Zip m.2
    ({ st.1 with Zip := r.1 }, saveError st.2 r.2)

/-- Storing a JSON value into the `*Address` field: `null` sets the pointer to
nil; for any other value a nil pointer is first allocated, then an object is
decoded member by member and anything else is a type error. -/
def storeAddress (fold : GoString → GoString) (cur : Option Address) (saved : Option JSONError)
    (v : JSON) : Option Address × Option JSONError :=
  match v with
  | .null => (none, saved)
  | .obj members =>
    let r := members.foldl (decodeAddressMember fold) (cur.getD Address.zero, saved)
    (some r.1, r.2)
  | _ => (some (cur.getD Address.zero), saveError saved (some (.unmarshalType "Employee.addr")))

/-- Fields of `Employee` seen by `encoding/json`, the promoted ones included. -/
inductive EmployeeField where
  | first
  | last
  | age
  | id
  | dept
  | addr
deriving DecidableEq, Repr

/-- JSON name of a field of `Employee` (its struct tag). -/
def EmployeeField.name : EmployeeField → GoString
  | .first => ascii "first"
  | .last => ascii "last"
  | .age => ascii "age"
  | .id => ascii "id"
  | .dept => ascii "dept"
  | .addr => ascii "addr"

/-- The fields of `Employee` in the order `encoding/json` lists them. -/
def employeeFields : List EmployeeField :=
  [.first, .last, .age, .id, .dept, .addr]

/-- One member of a JSON object decoded into an `Employee`; an unknown key is
skipped. -/
def decodeEmployeeMember (fold : GoString → GoString) (st : Employee × Option JSONError)
    (m : GoString × JSON) : Employee × Option JSONError :=
  match findField employeeFields EmployeeField.name fold m.1 with
  | none => st
  | some .first =>
    let r := storeString "Employee.first" st.1.Person.First m.2
    ({ st.1 with Person := { st.1.Person with First := r.1 } }, saveError st.2 r.2)
  | some .last =>
    let r := storeString "Employee.last" st.1.Person.Last m.2
    ({ st.1 with Person := { st.1.Person with Last := r.1 } }, saveError st.2 r.2)
  | some .age =>
    let r := storeInt "Employee.age" st.1.Person.Age m.2
    ({ st.1 with Person := { st.1.Person with Age := r.1 } }, saveError st.2 r.2)
  | some .id =>
    let r := storeString "Employee.id" st.1.ID m.2
    ({ st.1 with ID := r.1 }, saveError st.2 r.2)
  | some .dept =>
    let r := storeString "Employee.dept" st.1.Dept m.2
    ({ st.1 with Dept := r.1 }, saveError st.2 r.2)
  | some .addr =>
    let r := storeAddress fold st.1.Addr st.2 m.2
    ({ st.1 with Addr := r.1 }, r.2)

/-- Go `UnmarshalEmployee` on the document `data` denotes: `json.Unmarshal` into
a zero `Employee`, returning it with the first error met. -/
def UnmarshalEmployee (fold : GoString → GoString) (data : JSON) :
    Employee × Option JSONError :=
  match data with
  | .null => (Employee.zero, none)
  | .obj members => members.foldl (decodeEmployeeMember fold) (Employee.zero, none)
  | _ => (Employee.zero, some (.unmarshalType "Employee"))

/-- An `Employee` with every string coerced to valid UTF-8. -/
def Employee.toValidUTF8 (e : Employee) : Employee :=
  { Person := { First := Playground.toValidUTF8 e.Person.First,
                Last := Playground.toValidUTF8 e.Person.Last,
                Age := e.Person.Age },
    ID := Playground.toValidUTF8 e.ID,
    Dept := Playground.toValidUTF8 e.Dept,
    Addr := e.Addr.map (fun a =>
      { City := Playground.toValidUTF8 a.City, Zip := Playground.toValidUTF8 a.Zip }) }

/-- Whether every string of an `Employee` is valid UTF-8. -/
def Employee.validStrings (e : Employee) : Bool :=
  validString e.Person.First && validString e.Person.Last &&
  validString e.ID && validString e.Dept &&
  (match e.Addr with
   | none => true
   | some a => validString a.City && validString a.Zip)

/-- The `Employee` of `TestJSONRoundTrip`. -/
def testRoundTripEmployee : Employee :=
  { Person := (NewPerson (ascii "Aki") (ascii "Ito") 28).1, ID := ascii "E9",
    Dept := ascii "QA", Addr := some { City := ascii "Osaka", Zip := ascii "540-0000" } }

/-- An `Employee` whose first name is the single byte `0xFF`, which is not valid
UTF-8. -/
def invalidNameEmployee : Employee :=
  { Person := { First := [0xFF], Last := ascii "Ito", Age := 28 }, ID := ascii "E9",
    Dept := ascii "QA", Addr := none }

/-- Keys of a JSON object, in order; none for any other document. -/
def JSON.keys : JSON → List GoString
  | .obj members => members.map Prod.fst
  | _ => []

/-- Member of a JSON object under `key`. -/
def JSON.member (j : JSON) (key : GoString) : Option JSON :=
  match j with
  | .obj members => (members.find? (fun m => decide (m.1 = key))).map Prod.snd
  | _ => none

/-! ## Primitive operations (`g004_type.go`) -/

/-- Go `DivInt`: `a / b` panics when `b` is zero; otherwise the quotient is
truncated toward zero and, like every `int` result, wraps to 64 bits. -/
def DivInt (a b : Int) : Except Panic Int :=
  if b = 0 then .error .integerDivideByZero else .ok (wrapInt (Int.tdiv a b))

/-- Go `ModInt`: `a % b` panics when `b` is zero; otherwise the remainder of the
truncated division. -/
def ModInt (a b : Int) : Except Panic Int :=
  if b = 0 then .error .integerDivideByZero else .ok (wrapInt (Int.tmod a b))

/-- Body of the loop of `PowInt`: `k` iterations are left, each one runs
`res *= a`. -/
def powLoop (a : Int) : Nat → Int → Int
  | 0, res => res
  | k + 1, res => powLoop a k (wrapInt (res * a))

/-- Go `PowInt`: the loop `for i := 0; i < b; i++` runs `b` times, and not at all
when `b` is negative. -/
def PowInt (a b : Int) : Int := powLoop a b.toNat 1

/-! ### `float64`: IEEE 754 binary64, round to nearest, ties to even -/

/-- Go `float64`.  A finite value is `num q`, with `q` the rational number it
denotes (`num 0` is `+0`); `negZero` is `-0`. -/
inductive Float64 where
  | num (q : ℚ)
  | negZero
  | inf (neg : Bool)
  | nan
deriving DecidableEq

/-- Whether the rational number `q` is a finite binary64 value: `m * 2 ^ e` with
`|m| < 2 ^ 53` and `-1074 ≤ e ≤ 971`. -/
def IsBinary64 (q : ℚ) : Prop :=
  ∃ m e : Int, |m| < 9007199254740992 ∧ -1074 ≤ e ∧ e ≤ 971 ∧ q = (m : ℚ) * 2 ^ e

/-- Whether the value is a NaN. -/
def Float64.isNan : Float64 → Bool
  | .nan => true
  | _ => false

/-- Whether the value is an infinity. -/
def Float64.isInf : Float64 → Bool
  | .inf _ => true
  | _ => false

/-- Whether the value is `+0` or `-0`. -/
def Float64.isZero : Float64 → Bool
  | .num q => decide (q = 0)
  | .negZero => true
  | _ => false

/-- Whether the value is finite. -/
def Float64.isFinite : Float64 → Bool
  | .num _ => true
  | .negZero => true
  | _ => false

/-- The sign bit. -/
def Float64.isNeg : Float64 → Bool
  | .num q => decide (q < 0)
  | .negZero => true
  | .inf neg => neg
  | .nan => false

/-- The rational number a finite value denotes (`0` for the others). -/
def Float64.toRat : Float64 → ℚ
  | .num q => q
  | _ => 0

/-- Rounding to the nearest integer, ties to the even one. -/
def roundHalfEven (t : ℚ) : Int :=
  if t - (⌊t⌋ : ℚ) < 1 / 2 then ⌊t⌋
  else if 1 / 2 < t - (⌊t⌋ : ℚ) then ⌊t⌋ + 1
  else if ⌊t⌋ % 2 = 0 then ⌊t⌋ else ⌊t⌋ + 1

/-- Exponent of the unit in the last place of the binary64 values of the
magnitude of `q`: 52 below the binary exponent of `q`, and `-1074` in the
subnormal range. -/
def ulpExp (q : ℚ) : Int := max (Int.log 2 |q| - 52) (-1074)

/-- The multiple of the unit in the last place nearest to `q`, ties to even. -/
def roundMag (q : ℚ) : ℚ := (roundHalfEven (q / 2 ^ ulpExp q) : ℚ) * 2 ^ ulpExp q

/-- The binary64 result of an operation whose exact result is `q`: the nearest
value, an infinity on overflow; `s` is the sign of the result when `q = 0`. -/
def round64 (s : Bool) (q : ℚ) : Float64 :=
  if (2 : ℚ) ^ (1024 : Nat) ≤ |roundMag q| then .inf (decide (q < 0))
  else if roundMag q = 0 then
    (if q < 0 ∨ (q = 0 ∧ s = true) then .negZero else .num 0)
  else .num (roundMag q)

/-- Product `a * b` of two `float64`. -/
def fmul (a b : Float64) : Float64 :=
  if a.isNan || b.isNan then .nan
  else if a.isInf || b.isInf then
    (if a.isZero || b.isZero then .nan else .inf (xor a.isNeg b.isNeg))
  else round64 (xor a.isNeg b.isNeg) (a.toRat * b.toRat)

/-- Sum `a + b` of two `float64`. -/
def fadd (a b : Float64) : Float64 :=
  if a.isNan || b.isNan then .nan
  else if a.isInf && b.isInf then (if a.isNeg = b.isNeg then a else .nan)
  else if a.isInf then a
  else if b.isInf then b
  else round64 (a.isNeg && b.isNeg) (a.toRat + b.toRat)

/-- Fused multiply-add `a * b + c`, rounded once. -/
def ffma (a b c : Float64) : Float64 :=
  if a.isFinite && b.isFinite then
    (if c.isFinite then
      round64 (xor a.isNeg b.isNeg && c.isNeg) (a.toRat * b.toRat + c.toRat)
    else c)
  else fadd (fmul a b) c

/-- Quotient `a / b` of two `float64`. -/
def fdiv (a b : Float64) : Float64 :=
  if a.isNan || b.isNan then .nan
  else if a.isInf then (if b.isInf then .nan else .inf (xor a.isNeg b.isNeg))
  else if b.isInf then (if xor a.isNeg b.isNeg then .negZero else .num 0)
  else if b.isZero then (if a.isZero then .nan else .inf (xor a.isNeg b.isNeg))
  else round64 (xor a.isNeg b.isNeg) (a.toRat / b.toRat)

/-- Go `==` on `float64`: a NaN equals nothing, and `-0 == +0`. -/
def floatEq (a b : Float64) : Bool :=
  !a.isNan && !b.isNan && (decide (a = b) || (a.isZero && b.isZero))

/-- Go conversion `float64(k)` of an `int`. -/
def intToFloat (k : Int) : Float64 := round64 false (k : ℚ)

/-- The fraction of `q` discarded, truncating toward zero. -/
def truncate (q : ℚ) : Int := if 0 ≤ q then ⌊q⌋ else ⌈q⌉

/-- Go conversion `int(f)` of a `float64`: the fraction is discarded; when the
value is a NaN, an infinity, or its truncation is not representable in `int`,
the result is implementation dependent, and `impl` supplies it. -/
def floatToInt (impl : Float64 → Int) (f : Float64) : Int :=
  if f.isFinite = true ∧ IsInt (truncate f.toRat) then truncate f.toRat
  else wrapInt (impl f)

/-- Go `RoundFloat`: `x*scale + 0.5` is two roundings, or one when the compiler
fuses it. -/
def RoundFloat (fused : Bool) (impl : Float64 → Int) (x : Float64) (n : Int) : Float64 :=
  let p := PowInt 10 n
  let scale := intToFloat p
  let t := if fused then ffma x scale (.num (1 / 2)) else fadd (fmul x scale) (.num (1 / 2))
  fdiv (intToFloat (floatToInt impl t)) scale

/-- Go `strings.Repeat`: it panics if `count` is negative or if the length of the
result overflows `int`. -/
def stringsRepeat (s : GoString) (count : Int) : Except Panic GoString :=
  if count = 0 then .ok []
  else if count = 1 then .ok s
  else if count < 0 then .error (.explicit "strings: negative Repeat count")
  else if maxInt < (s.length : Int) * count then
    .error (.explicit "strings: Repeat output length overflow")
  else .ok (List.replicate count.toNat s).flatten

/-- Go `RepeatStr`. -/
def RepeatStr (s : GoString) (n : Int) : Except Panic GoString := stringsRepeat s n

/-- Go slice expression `s[lo:hi]` on a string: it panics unless
`0 ≤ lo ≤ hi ≤ len(s)`. -/
def sliceString (s : GoString) (lo hi : Int) : Except Panic GoString :=
  if 0 ≤ lo ∧ lo ≤ hi ∧ hi ≤ (s.length : Int) then
    .ok ((s.drop lo.toNat).take (hi.toNat - lo.toNat))
  else .error .sliceBoundsOutOfRange

/-- Go `SliceStr`; the parameter `end` of the source is `end_` here. -/
def SliceStr (s : GoString) (start end_ : Int) : Except Panic GoString :=
  let start := if start < 0 then 0 else start
  let end_ := if end_ > (s.length : Int) then (s.length : Int) else end_
  sliceString s start end_

/-- Go index expression `b[i]` on a byte slice: it panics unless
`0 ≤ i < len(b)`. -/
def GetByteValue (b : List Byte) (i : Int) : Except Panic Byte :=
  if 0 ≤ i ∧ i < (b.length : Int) then
    match b[i.toNat]? with
    | some v => .ok v
    | none => .error .indexOutOfRange
  else .error .indexOutOfRange

/-- Helper `makeEmp` of `TestUniqueByID`. -/
def makeEmp (id first : GoString) : Employee :=
  { Person := (NewPerson first (ascii "") 0).1, ID := id, Dept := ascii "X", Addr := none }

/-- Input slice of `TestUniqueByID`. -/
def testUniqueInput : List Employee :=
  [makeEmp (ascii "A") (ascii "a1"), makeEmp (ascii "B") (ascii "b1"),
   makeEmp (ascii "A") (ascii "a2"), makeEmp (ascii "") (ascii "z1"),
   makeEmp (ascii "") (ascii "z2")]

/-! ## Person: construction, display name, birthday -/

/-- C5: `NewPerson first last age` returns an error if and only if `age < 0`; for
`age ≥ 0` it returns no error and the Person made of the three arguments; when it
fails the returned Person is the zero Person. -/
theorem NewPerson_error_iff_negative (first last : GoString) (age : Int) :
    ((NewPerson first last age).2 ≠ none ↔ age < 0) ∧
    (0 ≤ age →
      NewPerson first last age = ({ First := first, Last := last, Age := age }, none)) ∧
    (age < 0 → (NewPerson first last age).1 = Person.zero) := by
  unfold NewPerson
  by_cases h : age < 0
  · simp [h]
  · simp [h]

/-- C6: `FullName` is `First + " " + Last` when both names are non-empty, `First`
when `Last` is empty, `Last` when `First` is empty, empty when both are; it is
empty exactly when both names are empty. -/
theorem FullName_cases (p : Person) :
    (p.First ≠ [] → p.Last ≠ [] → p.FullName = p.First ++ ascii " " ++ p.Last) ∧
    (p.Last = [] → p.FullName = p.First) ∧
    (p.First = [] → p.FullName = p.Last) ∧
    (p.First = [] → p.Last = [] → p.FullName = []) ∧
    (p.FullName = [] ↔ p.First = [] ∧ p.Last = []) := by
  unfold Person.FullName
  by_cases hf : p.First = [] <;> by_cases hl : p.Last = [] <;> simp [hf, hl]

/-- C7, at the largest age: the increment wraps to the smallest `int`, which is
not `Age + 1`. -/
theorem HaveBirthday_maxInt_counterexample :
    IsInt maxInt ∧
    HaveBirthday (some { First := ascii "Taro", Last := ascii "Yamada", Age := maxInt }) =
      .ok (some { First := ascii "Taro", Last := ascii "Yamada", Age := minInt }) ∧
    HaveBirthday (some { First := ascii "Taro", Last := ascii "Yamada", Age := maxInt }) ≠
      .ok (some { First := ascii "Taro", Last := ascii "Yamada", Age := maxInt + 1 }) := by
  refine ⟨by decide, rfl, ?_⟩
  intro h
  have h2 : HaveBirthday (some { First := ascii "Taro", Last := ascii "Yamada", Age := maxInt }) =
      .ok (some { First := ascii "Taro", Last := ascii "Yamada", Age := minInt }) := rfl
  rw [h2] at h
  injection h with h
  injection h with h
  injection h with _ _ h
  revert h
  decide

/-- C7, amended: on a present reference to a Person `p` whose age is below the
largest `int`, `HaveBirthday` leaves a Person with `Age = p.Age + 1` (again an
`int`) and the same `First` and `Last`; at the largest `int` the age wraps to
the smallest one; on a nil reference it changes nothing and does not panic. -/
theorem HaveBirthday_increments (p : Person) (hp : IsInt p.Age) :
    (∃ q, HaveBirthday (some p) = .ok (some q) ∧
      q.First = p.First ∧ q.Last = p.Last ∧ IsInt q.Age ∧
      (p.Age < maxInt → q.Age = p.Age + 1) ∧
      (p.Age = maxInt → q.Age = minInt)) ∧
    HaveBirthday none = .ok none := by
  refine ⟨⟨{ p with Age := wrapInt (p.Age + 1) }, rfl, rfl, rfl, ?_, ?_, ?_⟩, rfl⟩
  all_goals
    simp only [IsInt, minInt, maxInt, wrapInt] at *
    omega

/-- C7 at a concrete Person: age 20 becomes 21. -/
theorem HaveBirthday_increments_witness :
    (∃ q, HaveBirthday (some { First := ascii "Taro", Last := ascii "Yamada", Age := 20 }) =
        .ok (some q) ∧
      q.First = ascii "Taro" ∧ q.Last = ascii "Yamada" ∧ IsInt q.Age ∧
      ((20 : Int) < maxInt → q.Age = 20 + 1) ∧
      ((20 : Int) = maxInt → q.Age = minInt)) ∧
    HaveBirthday none = .ok none :=
  HaveBirthday_increments { First := ascii "Taro", Last := ascii "Yamada", Age := 20 }
    (by decide)

/-! ## Employee: label, address update, renaming -/

/-- C8: `Label` is `name ++ "[" ++ ID ++ "/" ++ Dept ++ "]"`, where `name` is the
full name of the embedded Person or `"(no name)"` when that is empty; the label
is never empty, and when the full name is empty it begins with `"(no name)"`
and not with `"["`. -/
theorem Label_format (e : Employee) :
    e.Label =
      (if e.Person.FullName = [] then ascii "(no name)" else e.Person.FullName) ++
        ascii "[" ++ e.ID ++ ascii "/" ++ e.Dept ++ ascii "]" ∧
    e.Label ≠ [] ∧
    (e.Person.FullName = [] →
      ascii "(no name)" <+: e.Label ∧ ¬ ascii "[" <+: e.Label) := by
  refine ⟨rfl, ?_, ?_⟩
  · simp [Employee.Label, ascii]
  · intro h
    have hl : e.Label =
        ascii "(no name)" ++ (ascii "[" ++ e.ID ++ ascii "/" ++ e.Dept ++ ascii "]") := by
      simp [Employee.Label, Employee.FullName, h]
    rw [hl]
    refine ⟨List.prefix_append _ _, ?_⟩
    intro hp
    have h1 : ascii "[" = [91] := by decide
    have h2 : ascii "(no name)" = [40, 110, 111, 32, 110, 97, 109, 101, 41] := by decide
    rw [h1, h2] at hp
    have h3 := (List.cons_prefix_cons.mp hp).1
    revert h3
    decide

/-- C9: `MoveTo` on a present reference leaves the same Person, ID and Dept and
an Address made of exactly the two arguments, whether or not the employee had an
Address; a second identical `MoveTo` changes nothing more; on a nil reference it
changes nothing and does not panic. -/
theorem MoveTo_sets_address (e : Employee) (city zip : GoString) :
    MoveTo (some e) city zip =
      .ok (some { Person := e.Person, ID := e.ID, Dept := e.Dept,
                  Addr := some { City := city, Zip := zip } }) ∧
    (MoveTo (some e) city zip >>= fun r => MoveTo r city zip) = MoveTo (some e) city zip ∧
    MoveTo none city zip = .ok none := by
  have h : ∀ v : Employee, MoveTo (some v) city zip =
      .ok (some { Person := v.Person, ID := v.ID, Dept := v.Dept,
                  Addr := some { City := city, Zip := zip } }) := by
    intro v
    cases ha : v.Addr <;> simp [MoveTo, deref, ha, bind, Except.bind, pure, Except.pure]
  refine ⟨h e, ?_, rfl⟩
  rw [h e]
  simp only [bind, Except.bind]
  exact h _

/-- C10: `Rename` on a present reference leaves `First` and `Last` equal to the
arguments and Age, ID, Dept and Address as they were, so the full name afterwards
is that of a Person with those two names; on a nil reference it changes nothing
and does not panic. -/
theorem Rename_sets_names (e : Employee) (first last : GoString) :
    Rename (some e) first last =
      .ok (some { Person := { First := first, Last := last, Age := e.Person.Age },
                  ID := e.ID, Dept := e.Dept, Addr := e.Addr }) ∧
    (∀ r, Rename (some e) first last = .ok (some r) →
      ∀ age, r.FullName = Person.FullName { First := first, Last := last, Age := age }) ∧
    Rename none first last = .ok none := by
  refine ⟨rfl, ?_, rfl⟩
  intro r hr age
  have : r = { Person := { First := first, Last := last, Age := e.Person.Age },
               ID := e.ID, Dept := e.Dept, Addr := e.Addr } := by
    have h2 : Rename (some e) first last =
      .ok (some { Person := { First := first, Last := last, Age := e.Person.Age },
                  ID := e.ID, Dept := e.Dept, Addr := e.Addr }) := rfl
    rw [h2] at hr
    injection hr with hr
    injection hr with hr
    exact hr.symm
  subst this
  rfl

/-! ## Deduplication by ID -/

theorem uniqueLoop_out (xs : List Employee) (seen : List GoString) (out : List Employee) :
    uniqueLoop xs seen out = out ++ uniqueLoop xs seen [] := by
  induction xs generalizing seen out with
  | nil => simp [uniqueLoop]
  | cons e rest ih =>
    unfold uniqueLoop
    split
    · exact ih seen out
    · rw [ih (e.ID :: seen) (out ++ [e]), ih (e.ID :: seen) ([] ++ [e])]
      simp

theorem uniqueLoop_cons (e : Employee) (rest : List Employee) (seen : List GoString) :
    uniqueLoop (e :: rest) seen [] =
      if e.ID ∈ seen then uniqueLoop rest seen []
      else e :: uniqueLoop rest (e.ID :: seen) [] := by
  rw [uniqueLoop]
  split
  · rfl
  · rw [uniqueLoop_out]
    rfl

theorem uniqueLoop_not_seen (xs : List Employee) (seen : List GoString) :
    ∀ x ∈ uniqueLoop xs seen [], x.ID ∉ seen := by
  induction xs generalizing seen with
  | nil => simp [uniqueLoop]
  | cons e rest ih =>
    rw [uniqueLoop_cons]
    split
    · exact ih seen
    · rename_i hne
      intro x hx
      rcases List.mem_cons.mp hx with rfl | hx
      · exact hne
      · exact fun hmem => ih (e.ID :: seen) x hx (List.mem_cons_of_mem _ hmem)

theorem uniqueLoop_seen_congr (xs : List Employee) (s t : List GoString)
    (h : ∀ k, k ∈ s ↔ k ∈ t) : uniqueLoop xs s [] = uniqueLoop xs t [] := by
  induction xs generalizing s t with
  | nil => simp [uniqueLoop]
  | cons e rest ih =>
    rw [uniqueLoop_cons, uniqueLoop_cons]
    by_cases hs : e.ID ∈ s
    · rw [if_pos hs, if_pos ((h _).mp hs)]
      exact ih s t h
    · rw [if_neg hs, if_neg (fun ht => hs ((h _).mpr ht))]
      congr 1
      apply ih
      intro k
      simp [h k]

theorem uniqueLoop_seen_cons (xs : List Employee) (k : GoString) (seen : List GoString) :
    uniqueLoop xs (k :: seen) [] =
      (uniqueLoop xs seen []).filter (fun d => decide (d.ID ≠ k)) := by
  induction xs generalizing seen with
  | nil => simp [uniqueLoop]
  | cons e rest ih =>
    rw [uniqueLoop_cons, uniqueLoop_cons]
    by_cases hs : e.ID ∈ seen
    · rw [if_pos hs, if_pos (List.mem_cons_of_mem _ hs)]
      exact ih seen
    · rw [if_neg hs]
      by_cases hk : e.ID = k
      · rw [if_pos (by rw [hk]; exact List.mem_cons_self _ _)]
        rw [List.filter_cons_of_neg (by simp [hk])]
        rw [hk]
        symm
        apply List.filter_eq_self.mpr
        intro x hx
        have := uniqueLoop_not_seen rest (k :: seen) x hx
        simp only [List.mem_cons, not_or] at this
        simpa using this.1
      · rw [if_neg (by simp [hk, hs])]
        rw [List.filter_cons_of_pos (by simp [hk])]
        congr 1
        rw [← ih (e.ID :: seen)]
        apply uniqueLoop_seen_congr
        intro j
        simp only [List.mem_cons]
        tauto

theorem uniqueLoop_sublist (xs : List Employee) (seen : List GoString) :
    (uniqueLoop xs seen []).Sublist xs := by
  induction xs generalizing seen with
  | nil => simp [uniqueLoop]
  | cons e rest ih =>
    rw [uniqueLoop_cons]
    split
    · exact (ih seen).trans (List.sublist_cons_self _ _)
    · exact (ih _).cons₂ _

theorem uniqueLoop_nodup (xs : List Employee) (seen : List GoString) :
    ((uniqueLoop xs seen []).map Employee.ID).Nodup := by
  induction xs generalizing seen with
  | nil => simp [uniqueLoop]
  | cons e rest ih =>
    rw [uniqueLoop_cons]
    split
    · exact ih seen
    · rw [List.map_cons, List.nodup_cons]
      refine ⟨?_, ih _⟩
      intro hmem
      obtain ⟨x, hx, hxe⟩ := List.mem_map.mp hmem
      have := uniqueLoop_not_seen rest (e.ID :: seen) x hx
      exact this (by rw [hxe]; exact List.mem_cons_self _ _)

theorem firstOccurrences_cons (e : Employee) (rest : List Employee) :
    firstOccurrences (e :: rest) =
      e :: (firstOccurrences rest).filter (fun d => decide (d.ID ≠ e.ID)) := by
  unfold firstOccurrences
  simp only [List.length_cons]
  rw [List.finRange_succ_eq_map, List.filter_cons_of_pos]
  · rw [List.map_cons, List.filter_map, List.map_map, List.filter_map, List.filter_filter]
    congr 1
    have hget : (e :: rest).get ∘ Fin.succ = rest.get := by
      funext i
      rfl
    rw [hget]
    congr 1
    apply List.filter_congr
    intro i _
    rw [Bool.eq_iff_iff]
    simp only [Function.comp, decide_eq_true_eq, Bool.and_eq_true]
    rw [Fin.forall_fin_succ]
    constructor
    · intro h
      refine ⟨fun heq => h.1 (Fin.succ_pos i) heq.symm, fun j hj => ?_⟩
      exact h.2 j (Fin.succ_lt_succ_iff.mpr hj)
    · intro h
      refine ⟨fun _ heq => h.1 heq.symm, fun j hj => ?_⟩
      exact h.2 j (Fin.succ_lt_succ_iff.mp hj)
  · simp


/-- C1: `UniqueByID xs` is exactly the elements `xs[i]` for which no earlier
`xs[j]` (`j < i`) has the same ID, by increasing `i`; it is a sub-sequence of
`xs`; the empty ID is a key like any other, as on the slice of the repository's
test, where the first `"A"`, `"B"` and `""` employees are kept. -/
theorem UniqueByID_eq_firstOccurrences (xs : List Employee) :
    UniqueByID xs = firstOccurrences xs ∧
    (UniqueByID xs).Sublist xs ∧
    UniqueByID testUniqueInput =
      [makeEmp (ascii "A") (ascii "a1"), makeEmp (ascii "B") (ascii "b1"),
       makeEmp (ascii "") (ascii "z1")] := by
  refine ⟨?_, uniqueLoop_sublist xs [], by decide⟩
  unfold UniqueByID
  induction xs with
  | nil => rfl
  | cons e rest ih =>
    rw [uniqueLoop_cons, if_neg (List.not_mem_nil _), uniqueLoop_seen_cons, ih,
      firstOccurrences_cons]

/-- C2: the IDs of the elements of `UniqueByID xs` are pairwise distinct. -/
theorem UniqueByID_ids_nodup (xs : List Employee) :
    ((UniqueByID xs).map Employee.ID).Nodup ∧
    ∀ i j : Fin (UniqueByID xs).length,
      ((UniqueByID xs).get i).ID = ((UniqueByID xs).get j).ID → i = j := by
  have hnd : ((UniqueByID xs).map Employee.ID).Nodup := uniqueLoop_nodup xs []
  refine ⟨hnd, fun i j hij => ?_⟩
  have hinj := List.nodup_iff_injective_get.mp hnd
  have hi : i.val < ((UniqueByID xs).map Employee.ID).length := by
    rw [List.length_map]; exact i.isLt
  have hj : j.val < ((UniqueByID xs).map Employee.ID).length := by
    rw [List.length_map]; exact j.isLt
  have := @hinj ⟨i.val, hi⟩ ⟨j.val, hj⟩ (by simpa using hij)
  exact Fin.ext (Fin.mk.inj this)

/-! ## JSON round trip -/

theorem coerceLoop_of_valid (fuel : Nat) (s : GoString)
    (hv : validLoop fuel s = true) (hlen : s.length ≤ fuel) : coerceLoop fuel s = s := by
  induction fuel generalizing s with
  | zero =>
    cases s with
    | nil => rfl
    | cons b t => simp at hlen
  | succ fuel ih =>
    cases s with
    | nil => rfl
    | cons b t =>
      simp only [validLoop, Bool.and_eq_true, decide_eq_true_eq] at hv
      obtain ⟨hne, hrest⟩ := hv
      simp only [coerceLoop, if_neg hne]
      rw [ih _ hrest, List.take_append_drop]
      rw [List.length_drop]
      simp only [List.length_cons] at hlen ⊢
      omega

theorem decodeSize_examples :
    decodeSize [0x41] = 1 ∧ decodeSize [0xC3, 0xA9] = 2 ∧ decodeSize [0xE2, 0x82, 0xAC] = 3 ∧
    decodeSize [0xF0, 0x9F, 0x98, 0x80] = 4 ∧ decodeSize [0xEF, 0xBF, 0xBD] = 3 ∧
    decodeSize [0xFF] = 0 ∧ decodeSize [0x80] = 0 ∧ decodeSize [0xC0, 0x80] = 0 ∧
    decodeSize [0xE0, 0x80, 0x80] = 0 ∧ decodeSize [0xED, 0xA0, 0x80] = 0 ∧
    decodeSize [0xF4, 0x90, 0x80, 0x80] = 0 ∧ decodeSize [0xE2, 0x82] = 0 ∧
    toValidUTF8 [0x41, 0xFF, 0x42] = [0x41, 0xEF, 0xBF, 0xBD, 0x42] ∧
    toValidUTF8 [0xE2, 0x82] = [0xEF, 0xBF, 0xBD, 0xEF, 0xBF, 0xBD] ∧
    validString [0x41, 0xC3, 0xA9, 0xE2, 0x82, 0xAC] = true ∧
    validString [0x41, 0xFF] = false := by
  decide

theorem toValidUTF8_of_valid (s : GoString) (hv : validString s = true) :
    toValidUTF8 s = s :=
  coerceLoop_of_valid s.length s hv (Nat.le_refl _)

theorem findField_employee (fold : GoString → GoString) (f : EmployeeField) :
    findField employeeFields EmployeeField.name fold f.name = some f := by
  cases f <;> rfl

theorem findField_address (fold : GoString → GoString) (f : AddressField) :
    findField [AddressField.city, AddressField.zip] AddressField.name fold f.name = some f := by
  cases f <;> rfl

theorem UnmarshalEmployee_encodeEmployee (fold : GoString → GoString) (e : Employee)
    (hage : IsInt e.Person.Age) :
    UnmarshalEmployee fold (encodeEmployee e) = (e.toValidUTF8, none) := by
  have f1 := findField_employee fold .first
  have f2 := findField_employee fold .last
  have f3 := findField_employee fold .age
  have f4 := findField_employee fold .id
  have f5 := findField_employee fold .dept
  have f6 := findField_employee fold .addr
  have a1 := findField_address fold .city
  have a2 := findField_address fold .zip
  simp only [EmployeeField.name, AddressField.name] at f1 f2 f3 f4 f5 f6 a1 a2
  obtain ⟨⟨first, last, age⟩, id, dept, addr⟩ := e
  cases addr with
  | none =>
    simp [UnmarshalEmployee, encodeEmployee, decodeEmployeeMember, f1, f2, f3, f4, f5,
      storeString, storeInt, encodeString, saveError, Employee.toValidUTF8, Employee.zero,
      Person.zero, hage]
  | some a =>
    obtain ⟨city, zip⟩ := a
    simp [UnmarshalEmployee, encodeEmployee, decodeEmployeeMember, f1, f2, f3, f4, f5, f6,
      storeString, storeInt, encodeString, saveError, Employee.toValidUTF8, Employee.zero,
      Person.zero, hage, storeAddress, encodeAddress, decodeAddressMember, a1, a2,
      Address.zero]

theorem Employee.coerced_eq_self_of_valid (e : Employee) (hv : e.validStrings = true) :
    e.toValidUTF8 = e := by
  obtain ⟨⟨first, last, age⟩, id, dept, addr⟩ := e
  cases addr with
  | none =>
    simp only [Employee.validStrings, Bool.and_eq_true] at hv
    obtain ⟨⟨⟨⟨h1, h2⟩, h3⟩, h4⟩, _⟩ := hv
    simp [Employee.toValidUTF8, Playground.toValidUTF8_of_valid, h1, h2, h3, h4]
  | some a =>
    obtain ⟨city, zip⟩ := a
    simp only [Employee.validStrings, Bool.and_eq_true] at hv
    obtain ⟨⟨⟨⟨h1, h2⟩, h3⟩, h4⟩, h5, h6⟩ := hv
    simp [Employee.toValidUTF8, Playground.toValidUTF8_of_valid, h1, h2, h3, h4, h5, h6]

/-- C3, on an Employee whose first name is the byte `0xFF`: marshalling and
unmarshalling both succeed, but the decoded first name is U+FFFD, so the decoded
Employee differs from the original. -/
theorem json_roundtrip_invalid_utf8_counterexample :
    IsInt invalidNameEmployee.Person.Age ∧
    MarshalEmployee invalidNameEmployee = .ok (encodeEmployee invalidNameEmployee) ∧
    ∀ fold : GoString → GoString,
      (UnmarshalEmployee fold (encodeEmployee invalidNameEmployee)).2 = none ∧
      (UnmarshalEmployee fold (encodeEmployee invalidNameEmployee)).1.Person.First =
        [0xEF, 0xBF, 0xBD] ∧
      (UnmarshalEmployee fold (encodeEmployee invalidNameEmployee)).1 ≠ invalidNameEmployee := by
  refine ⟨by decide, rfl, fun fold => ?_⟩
  rw [UnmarshalEmployee_encodeEmployee fold invalidNameEmployee (by decide)]
  refine ⟨rfl, by decide, by decide⟩

/-- C3, amended: for every Employee whose strings are all valid UTF-8 (and whose
age is an `int`), with or without an Address, `MarshalEmployee` succeeds,
`UnmarshalEmployee` of its output succeeds, and the decoded Employee equals the
original in every field. -/
theorem json_roundtrip_valid_utf8 (fold : GoString → GoString) (e : Employee)
    (hage : IsInt e.Person.Age) (hvalid : e.validStrings = true) :
    ∃ doc, MarshalEmployee e = .ok doc ∧ UnmarshalEmployee fold doc = (e, none) := by
  refine ⟨encodeEmployee e, rfl, ?_⟩
  rw [UnmarshalEmployee_encodeEmployee fold e hage, Employee.coerced_eq_self_of_valid e hvalid]

/-- C3 on the Employee of the repository's round-trip test. -/
theorem json_roundtrip_valid_utf8_witness :
    IsInt testRoundTripEmployee.Person.Age ∧ testRoundTripEmployee.validStrings = true ∧
    ∃ doc, MarshalEmployee testRoundTripEmployee = .ok doc ∧
      UnmarshalEmployee (fun k => k) doc = (testRoundTripEmployee, none) :=
  ⟨by decide, by decide,
    json_roundtrip_valid_utf8 (fun k => k) testRoundTripEmployee (by decide) (by decide)⟩

/-- C4: the object `MarshalEmployee` produces has the members `first`, `last`,
`age`, `id`, `dept`, holding the fields of the Employee, followed by a member
`addr` exactly when the Employee has an Address; that member is an object with
the members `city` and `zip`; without an Address there is no `addr` key at all,
in particular no `null` member. -/
theorem MarshalEmployee_members (e : Employee) :
    ∃ doc, MarshalEmployee e = .ok doc ∧
      doc.keys = [ascii "first", ascii "last", ascii "age", ascii "id", ascii "dept"] ++
        (if e.Addr = none then [] else [ascii "addr"]) ∧
      doc.member (ascii "first") = some (encodeString e.Person.First) ∧
      doc.member (ascii "last") = some (encodeString e.Person.Last) ∧
      doc.member (ascii "age") = some (.num e.Person.Age) ∧
      doc.member (ascii "id") = some (encodeString e.ID) ∧
      doc.member (ascii "dept") = some (encodeString e.Dept) ∧
      (ascii "addr" ∈ doc.keys ↔ e.Addr ≠ none) ∧
      (∀ a, e.Addr = some a →
        doc.member (ascii "addr") =
          some (.obj [(ascii "city", encodeString a.City), (ascii "zip", encodeString a.Zip)])) ∧
      (e.Addr = none → doc.member (ascii "addr") = none) := by
  refine ⟨encodeEmployee e, rfl, ?_⟩
  obtain ⟨⟨first, last, age⟩, id, dept, addr⟩ := e
  cases addr with
  | none =>
    refine ⟨rfl, rfl, rfl, rfl, rfl, rfl, ?_, ?_, fun _ => rfl⟩
    · have hk : (encodeEmployee ⟨⟨first, last, age⟩, id, dept, none⟩).keys =
          [ascii "first", ascii "last", ascii "age", ascii "id", ascii "dept"] := rfl
      rw [hk]
      simp only [ne_eq, not_true_eq_false, iff_false]
      decide
    · intro a h
      cases h
  | some a =>
    refine ⟨rfl, rfl, rfl, rfl, rfl, rfl, ?_, ?_, ?_⟩
    · have hk : (encodeEmployee ⟨⟨first, last, age⟩, id, dept, some a⟩).keys =
          [ascii "first", ascii "last", ascii "age", ascii "id", ascii "dept",
           ascii "addr"] := rfl
      rw [hk]
      simp only [ne_eq, reduceCtorEq, not_false_eq_true, iff_true]
      decide
    · intro b h
      cases h
      rfl
    · intro h
      cases h

/-! ## Person: cloning and comparison -/

/-- C19: `EqualPerson a b` is true if and only if `a` and `b` agree on `First`,
`Last` and `Age`; `ClonePerson p` has the same three field values as `p`, and
`EqualPerson p (ClonePerson p)` is true. -/
theorem EqualPerson_iff_fields (a b p : Person) :
    (EqualPerson a b = true ↔ a.First = b.First ∧ a.Last = b.Last ∧ a.Age = b.Age) ∧
    ((ClonePerson p).First = p.First ∧ (ClonePerson p).Last = p.Last ∧
      (ClonePerson p).Age = p.Age) ∧
    EqualPerson p (ClonePerson p) = true := by
  refine ⟨?_, ⟨rfl, rfl, rfl⟩, ?_⟩
  · cases a
    cases b
    simp [EqualPerson]
  · simp [EqualPerson, ClonePerson]

/-! ## Deduplication by ID: idempotence and identifiers -/

theorem uniqueLoop_ids (xs : List Employee) (seen : List GoString) (k : GoString) :
    k ∈ (uniqueLoop xs seen []).map Employee.ID ↔ k ∈ xs.map Employee.ID ∧ k ∉ seen := by
  induction xs generalizing seen with
  | nil => simp [uniqueLoop]
  | cons e rest ih =>
    rw [uniqueLoop_cons]
    by_cases he : e.ID ∈ seen
    · rw [if_pos he, ih seen]
      constructor
      · rintro ⟨h1, h2⟩
        exact ⟨by simp [List.mem_map] at h1 ⊢; exact Or.inr h1, h2⟩
      · rintro ⟨h1, h2⟩
        refine ⟨?_, h2⟩
        rw [List.map_cons, List.mem_cons] at h1
        rcases h1 with h1 | h1
        · exact absurd (h1 ▸ he) h2
        · exact h1
    · rw [if_neg he, List.map_cons, List.mem_cons, ih (e.ID :: seen), List.map_cons,
        List.mem_cons, List.mem_cons]
      constructor
      · rintro (h | ⟨h1, h2⟩)
        · exact ⟨Or.inl h, h ▸ he⟩
        · exact ⟨Or.inr h1, fun h => h2 (Or.inr h)⟩
      · rintro ⟨h1 | h1, h2⟩
        · exact Or.inl h1
        · by_cases hk : k = e.ID
          · exact Or.inl hk
          · refine Or.inr ⟨h1, ?_⟩
            rintro (h | h)
            · exact hk h
            · exact h2 h

theorem uniqueLoop_of_nodup (xs : List Employee) (seen : List GoString)
    (hn : (xs.map Employee.ID).Nodup) (hd : ∀ x ∈ xs, x.ID ∉ seen) :
    uniqueLoop xs seen [] = xs := by
  induction xs generalizing seen with
  | nil => rfl
  | cons e rest ih =>
    rw [List.map_cons, List.nodup_cons] at hn
    rw [uniqueLoop_cons, if_neg (hd e (List.mem_cons_self _ _))]
    congr 1
    apply ih _ hn.2
    intro x hx
    rw [List.mem_cons]
    rintro (h | h)
    · exact hn.1 (h ▸ List.mem_map_of_mem Employee.ID hx)
    · exact hd x (List.mem_cons_of_mem _ hx) h

/-- C20: `UniqueByID` is idempotent, its result is no longer than its input, and
an identifier occurs in the result if and only if it occurs in the input. -/
theorem UniqueByID_idempotent (xs : List Employee) :
    UniqueByID (UniqueByID xs) = UniqueByID xs ∧
    (UniqueByID xs).length ≤ xs.length ∧
    ∀ k : GoString, k ∈ (UniqueByID xs).map Employee.ID ↔ k ∈ xs.map Employee.ID := by
  refine ⟨?_, ?_, ?_⟩
  · unfold UniqueByID
    rw [uniqueLoop_out xs [] [], List.nil_append]
    rw [uniqueLoop_out (uniqueLoop xs [] []) [] [], List.nil_append]
    exact uniqueLoop_of_nodup _ _ (uniqueLoop_nodup xs []) (fun _ _ => List.not_mem_nil _)
  · unfold UniqueByID
    exact (uniqueLoop_sublist xs []).length_le
  · intro k
    unfold UniqueByID
    rw [uniqueLoop_ids xs [] k]
    simp

/-! ## Integer arithmetic: wrap-around, power, division -/

theorem wrapInt_of_IsInt (n : Int) (h : IsInt n) : wrapInt n = n := by
  unfold IsInt minInt maxInt at h
  unfold wrapInt
  omega

theorem wrapInt_modEq (n : Int) : wrapInt n ≡ n [ZMOD 18446744073709551616] := by
  unfold wrapInt Int.ModEq
  omega

theorem wrapInt_congr (m n : Int) (h : m ≡ n [ZMOD 18446744073709551616]) :
    wrapInt m = wrapInt n := by
  unfold Int.ModEq at h
  unfold wrapInt
  omega

theorem wrapInt_mul_left (x a : Int) : wrapInt (wrapInt x * a) = wrapInt (x * a) :=
  wrapInt_congr _ _ ((wrapInt_modEq x).mul_right a)

theorem powLoop_eq (a : Int) (k : Nat) (res : Int) :
    powLoop a k res = if k = 0 then res else wrapInt (res * a ^ k) := by
  induction k generalizing res with
  | zero => simp [powLoop]
  | succ k ih =>
    rw [powLoop, ih]
    by_cases hk : k = 0
    · subst hk; simp
    · rw [if_neg hk, if_neg (Nat.succ_ne_zero k), wrapInt_mul_left, pow_succ]
      congr 1
      ring

theorem powLoop_eq_foldl (a : Int) (k : Nat) (res : Int) :
    powLoop a k res = (List.replicate k a).foldl (fun r x => wrapInt (r * x)) res := by
  induction k generalizing res with
  | zero => rfl
  | succ k ih => rw [powLoop, ih, List.replicate_succ, List.foldl_cons]

theorem PowInt_eq_wrap_pow (a : Int) (b : Nat) : PowInt a b = wrapInt (a ^ b) := by
  unfold PowInt
  rw [Int.toNat_ofNat, powLoop_eq]
  by_cases hb : b = 0
  · subst hb
    rfl
  · rw [if_neg hb, one_mul]

/-- C16: for every integer `a` and every exponent `b ≥ 0`, `PowInt a b` is the
product of `b` copies of `a` starting from `1` in wrapping 64-bit arithmetic,
which is `a ^ b` wrapped to 64 bits (and `a ^ b` itself when that is
representable); `PowInt a 0 = 1` for every `a`, `0` included, and
`PowInt 2 8 = 256`. -/
theorem PowInt_eq_pow (a : Int) (b : Nat) :
    PowInt a b = (List.replicate b a).foldl (fun r x => wrapInt (r * x)) 1 ∧
    PowInt a b = wrapInt (a ^ b) ∧
    (IsInt (a ^ b) → PowInt a b = a ^ b) ∧
    PowInt a 0 = 1 ∧ PowInt 0 0 = 1 ∧ PowInt 2 8 = 256 := by
  refine ⟨?_, PowInt_eq_wrap_pow a b, ?_, rfl, rfl, by decide⟩
  · unfold PowInt
    rw [Int.toNat_ofNat, powLoop_eq_foldl]
  · intro hi
    rw [PowInt_eq_wrap_pow, wrapInt_of_IsInt _ hi]

theorem tmod_sign_and_bound (a b : Int) (hb : b ≠ 0) :
    (0 ≤ a → 0 ≤ Int.tmod a b) ∧ (a ≤ 0 → Int.tmod a b ≤ 0) ∧ |Int.tmod a b| < |b| := by
  have key : ∀ (m n : Nat),
      (Int.tmod (m : Int) (n : Int) = ((m % n : Nat) : Int)) ∧
      (Int.tmod (-(m : Int)) (n : Int) = -((m % n : Nat) : Int)) := by
    intro m n
    constructor
    · rfl
    · cases m with
      | zero => simp
      | succ k => rfl
  obtain ⟨m, hm⟩ : ∃ m : Nat, a = m ∨ a = -m := ⟨a.natAbs, Int.natAbs_eq a⟩
  obtain ⟨n, hn⟩ : ∃ n : Nat, b = n ∨ b = -n := ⟨b.natAbs, Int.natAbs_eq b⟩
  have hn0 : 0 < n := by
    rcases hn with rfl | rfl <;> omega
  have hlt := Nat.mod_lt m hn0
  have hle := Nat.mod_le m n
  have habs : |b| = (n : Int) := by
    rcases hn with rfl | rfl <;> simp
  rw [habs]
  have htm : Int.tmod a b = Int.tmod a n := by
    rcases hn with rfl | rfl
    · rfl
    · rw [Int.tmod_neg]
  rw [htm]
  rcases hm with rfl | rfl
  · rw [(key m n).1]
    refine ⟨fun _ => by omega, fun _ => by omega, ?_⟩
    rw [abs_of_nonneg (by omega)]
    omega
  · rw [(key m n).2]
    refine ⟨fun _ => by omega, fun _ => by omega, ?_⟩
    rw [abs_neg, abs_of_nonneg (by omega)]
    omega

theorem tdiv_IsInt (a b : Int) (ha : IsInt a) (hne : ¬ (a = minInt ∧ b = -1)) :
    IsInt (Int.tdiv a b) := by
  have h1 : (Int.tdiv a b).natAbs ≤ a.natAbs := by
    rw [Int.natAbs_tdiv]
    exact Nat.div_le_self _ _
  unfold IsInt minInt maxInt at *
  by_cases hq : Int.tdiv a b = 9223372036854775808
  · exfalso
    have h3 : a = -9223372036854775808 := by omega
    have h4 : a.natAbs / b.natAbs = 9223372036854775808 := by
      have h := Int.natAbs_tdiv a b
      rw [hq] at h
      exact h.symm
    have hb0 : b.natAbs ≠ 0 := by
      intro h0
      rw [h0, Nat.div_zero] at h4
      omega
    have h5 : b.natAbs = 1 := by
      by_contra h
      have h2 : 2 ≤ b.natAbs := by omega
      have h6 : a.natAbs / b.natAbs ≤ a.natAbs / 2 := Nat.div_le_div_left h2 (by norm_num)
      omega
    have h6 : b = 1 ∨ b = -1 := by omega
    rcases h6 with rfl | rfl
    · rw [h3] at hq
      revert hq
      decide
    · exact hne ⟨h3, rfl⟩
  · omega

/-- Counterexample to C18 as stated: at `a = -2^63`, `b = -1` the division succeeds
but the quotient is `-2^63`, not the quotient truncated toward zero (`2^63`), and
`a = b * q + r` does not hold for the returned quotient and remainder. -/
theorem DivInt_minInt_counterexample :
    IsInt minInt ∧ IsInt (-1) ∧ (-1 : Int) ≠ 0 ∧
    DivInt minInt (-1) = .ok minInt ∧ ModInt minInt (-1) = .ok 0 ∧
    Int.tdiv minInt (-1) = 9223372036854775808 ∧
    minInt ≠ Int.tdiv minInt (-1) ∧
    minInt ≠ (-1) * minInt + 0 :=
  ⟨by decide, by decide, by decide, rfl, rfl, by decide, by decide, by decide⟩

/-- C18 (amended): `DivInt a b` and `ModInt a b` fail, with a division-by-zero
panic, if and only if `b = 0`.  For `b ≠ 0`, and apart from `a = -2^63` with
`b = -1`, both succeed, the quotient is truncated toward zero, the remainder has
the sign of `a` (or is zero), `|r| < |b|` and `a = b * q + r`.  At `a = -2^63`,
`b = -1` the quotient wraps to `-2^63` and the remainder is `0`.
`DivInt 7 3 = 2` and `ModInt 7 3 = 1`. -/
theorem DivInt_ModInt_spec (a b : Int) (ha : IsInt a) (hb : IsInt b)
    (hne : ¬ (a = minInt ∧ b = -1)) :
    ((∃ p, DivInt a b = .error p) ↔ b = 0) ∧
    ((∃ p, ModInt a b = .error p) ↔ b = 0) ∧
    (b = 0 → DivInt a b = .error .integerDivideByZero ∧
      ModInt a b = .error .integerDivideByZero) ∧
    (b ≠ 0 → ∃ q r, DivInt a b = .ok q ∧ ModInt a b = .ok r ∧
      q = Int.tdiv a b ∧ |b * q| ≤ |a| ∧
      (0 ≤ a → 0 ≤ r) ∧ (a ≤ 0 → r ≤ 0) ∧ |r| < |b| ∧ a = b * q + r) ∧
    (DivInt minInt (-1) = .ok minInt ∧ ModInt minInt (-1) = .ok 0) ∧
    DivInt 7 3 = .ok 2 ∧ ModInt 7 3 = .ok 1 := by
  refine ⟨?_, ?_, ?_, ?_, ⟨rfl, rfl⟩, rfl, rfl⟩
  · unfold DivInt
    by_cases h : b = 0 <;> simp [h]
  · unfold ModInt
    by_cases h : b = 0 <;> simp [h]
  · intro h
    simp [DivInt, ModInt, h]
  · intro h
    obtain ⟨s1, s2, s3⟩ := tmod_sign_and_bound a b h
    have hq : IsInt (Int.tdiv a b) := tdiv_IsInt a b ha hne
    have hr : IsInt (Int.tmod a b) := by
      unfold IsInt minInt maxInt at *
      rw [abs_lt] at s3
      have h1 : |b| ≤ 9223372036854775808 := by
        rw [abs_le]
        omega
      omega
    have hid : a = b * Int.tdiv a b + Int.tmod a b := (Int.tdiv_add_tmod a b).symm
    refine ⟨Int.tdiv a b, Int.tmod a b, ?_, ?_, rfl, ?_, s1, s2, s3, hid⟩
    · simp [DivInt, h, wrapInt_of_IsInt _ hq]
    · simp [ModInt, h, wrapInt_of_IsInt _ hr]
    · rw [abs_mul, Int.abs_eq_natAbs, Int.abs_eq_natAbs, Int.abs_eq_natAbs, Int.natAbs_tdiv]
      norm_cast
      exact Nat.mul_div_le _ _

theorem DivInt_ModInt_spec_witness :
    IsInt (-7) ∧ IsInt 2 ∧ ¬ ((-7 : Int) = minInt ∧ (2 : Int) = -1) ∧
    ∃ q r, DivInt (-7) 2 = .ok q ∧ ModInt (-7) 2 = .ok r ∧ q = -3 ∧ r = -1 := by
  refine ⟨by decide, by decide, by decide, ?_⟩
  obtain ⟨q, r, h1, h2, h3, -, -, -, -, -⟩ :=
    (DivInt_ModInt_spec (-7) 2 (by decide) (by decide) (by decide)).2.2.2.1 (by decide)
  refine ⟨q, r, h1, h2, ?_, ?_⟩
  · rw [h3]
    decide
  · have h4 : ModInt (-7) 2 = .ok (-1) := rfl
    rw [h4] at h2
    injection h2 with h2
    exact h2.symm

/-! ## Bytes and strings: indexing, slicing, repetition -/

/-- C17: `GetByteValue b i` fails, with an index-out-of-range panic, if and only if
`i < 0` or `i ≥ len(b)`; when `0 ≤ i < len(b)` it returns the byte at position `i`
of `b`. -/
theorem GetByteValue_spec (b : List Byte) (i : Int) :
    ((∃ p, GetByteValue b i = .error p) ↔ (i < 0 ∨ (b.length : Int) ≤ i)) ∧
    (GetByteValue b i = .error .indexOutOfRange ↔ (i < 0 ∨ (b.length : Int) ≤ i)) ∧
    (∀ (k : Nat) (hk : k < b.length), GetByteValue b (k : Int) = .ok (b.get ⟨k, hk⟩)) ∧
    (0 ≤ i → i < (b.length : Int) → ∃ v, GetByteValue b i = .ok v ∧ b[i.toNat]? = some v) := by
  have hin : ∀ j : Int, 0 ≤ j → j < (b.length : Int) →
      ∃ hj : j.toNat < b.length, GetByteValue b j = .ok (b.get ⟨j.toNat, hj⟩) := by
    intro j h0 h1
    have hj : j.toNat < b.length := by omega
    refine ⟨hj, ?_⟩
    unfold GetByteValue
    rw [if_pos ⟨h0, h1⟩, List.getElem?_eq_getElem hj]
    rfl
  have hout : (i < 0 ∨ (b.length : Int) ≤ i) → GetByteValue b i = .error .indexOutOfRange := by
    intro h
    unfold GetByteValue
    rw [if_neg (by omega)]
  refine ⟨?_, ?_, ?_, ?_⟩
  · constructor
    · rintro ⟨p, hp⟩
      by_contra hc
      obtain ⟨_, h⟩ := hin i (by omega) (by omega)
      rw [h] at hp
      cases hp
    · intro h
      exact ⟨_, hout h⟩
  · constructor
    · intro hp
      by_contra hc
      obtain ⟨_, h⟩ := hin i (by omega) (by omega)
      rw [h] at hp
      cases hp
    · exact hout
  · intro k hk
    obtain ⟨_, h⟩ := hin (k : Int) (by omega) (by omega)
    rw [h]
    rfl
  · intro h0 h1
    obtain ⟨hj, h⟩ := hin i h0 h1
    exact ⟨_, h, List.getElem?_eq_getElem hj⟩

theorem SliceStr_unfold (s : GoString) (start end_ : Int) :
    SliceStr s start end_ = sliceString s (max start 0) (min end_ (s.length : Int)) := by
  unfold SliceStr
  have h1 : (if start < 0 then 0 else start) = max start 0 := by
    split <;> omega
  have h2 : (if end_ > (s.length : Int) then (s.length : Int) else end_) =
      min end_ (s.length : Int) := by
    split <;> omega
  simp only [h1, h2]

/-- C13: when `max start 0 ≤ min end len(s)`, `SliceStr s start end` succeeds and
returns the bytes of `s` from index `max start 0` up to but excluding index
`min end len(s)`, of length `min end len(s) - max start 0`; a negative start acts
as `0` and an end beyond the length acts as the length.
`SliceStr "abcdef" 1 4 = "bcd"`. -/
theorem SliceStr_clamped (s : GoString) (start end_ : Int)
    (h : max start 0 ≤ min end_ (s.length : Int)) :
    (∃ r, SliceStr s start end_ = .ok r ∧
      (r.length : Int) = min end_ (s.length : Int) - max start 0 ∧
      (∀ k : Nat, k < r.length → r[k]? = s[(max start 0).toNat + k]?) ∧
      r = (s.drop (max start 0).toNat).take
        ((min end_ (s.length : Int)).toNat - (max start 0).toNat)) ∧
    (start < 0 → SliceStr s start end_ = SliceStr s 0 end_) ∧
    ((s.length : Int) < end_ → SliceStr s start end_ = SliceStr s start (s.length : Int)) ∧
    SliceStr (ascii "abcdef") 1 4 = .ok (ascii "bcd") := by
  refine ⟨?_, ?_, ?_, rfl⟩
  · refine ⟨_, ?_, ?_, ?_, rfl⟩
    · rw [SliceStr_unfold]
      unfold sliceString
      rw [if_pos ⟨by omega, h, by omega⟩]
    · rw [List.length_take, List.length_drop]
      omega
    · intro k hk
      rw [List.length_take] at hk
      rw [List.getElem?_take, if_pos (by omega), List.getElem?_drop]
  · intro h0
    rw [SliceStr_unfold, SliceStr_unfold]
    congr 1
    omega
  · intro h1
    rw [SliceStr_unfold, SliceStr_unfold]
    congr 1
    omega

theorem SliceStr_clamped_witness :
    max (-2 : Int) 0 ≤ min 4 ((ascii "abcdef").length : Int) ∧
    ∃ r, SliceStr (ascii "abcdef") (-2) 4 = .ok r ∧ (r.length : Int) = 4 := by
  refine ⟨by decide, ?_⟩
  obtain ⟨r, h1, h2, -, -⟩ := (SliceStr_clamped (ascii "abcdef") (-2) 4 (by decide)).1
  refine ⟨r, h1, ?_⟩
  rw [h2]
  decide

/-- C14: `SliceStr s start end` fails, with a slice-bounds-out-of-range panic, if
and only if the bounds are out of order after clamping, that is
`max start 0 > min end len(s)`; every negative end and every start greater than
`len(s)` fails. -/
theorem SliceStr_fails_iff (s : GoString) (start end_ : Int) :
    ((∃ p, SliceStr s start end_ = .error p) ↔ max start 0 > min end_ (s.length : Int)) ∧
    (SliceStr s start end_ = .error .sliceBoundsOutOfRange ↔
      max start 0 > min end_ (s.length : Int)) ∧
    (end_ < 0 → SliceStr s start end_ = .error .sliceBoundsOutOfRange) ∧
    ((s.length : Int) < start → SliceStr s start end_ = .error .sliceBoundsOutOfRange) := by
  have hout : max start 0 > min end_ (s.length : Int) →
      SliceStr s start end_ = .error .sliceBoundsOutOfRange := by
    intro h
    rw [SliceStr_unfold]
    unfold sliceString
    rw [if_neg (by omega)]
  have hin : ¬ max start 0 > min end_ (s.length : Int) → ∃ r, SliceStr s start end_ = .ok r := by
    intro h
    rw [SliceStr_unfold]
    unfold sliceString
    rw [if_pos ⟨by omega, by omega, by omega⟩]
    exact ⟨_, rfl⟩
  refine ⟨?_, ?_, ?_, ?_⟩
  · constructor
    · rintro ⟨p, hp⟩
      by_contra hc
      obtain ⟨r, hr⟩ := hin hc
      rw [hr] at hp
      cases hp
    · intro h
      exact ⟨_, hout h⟩
  · constructor
    · intro hp
      by_contra hc
      obtain ⟨r, hr⟩ := hin hc
      rw [hr] at hp
      cases hp
    · exact hout
  · intro h
    exact hout (by omega)
  · intro h
    exact hout (by omega)

/-- Counterexample to C15 as stated: with the negative count `-1`, `RepeatStr`
does not return the empty string, it panics. -/
theorem RepeatStr_negative_counterexample :
    (-1 : Int) ≤ 0 ∧
    RepeatStr (ascii "a") (-1) = .error (.explicit "strings: negative Repeat count") ∧
    RepeatStr (ascii "a") (-1) ≠ .ok [] := by
  refine ⟨by decide, rfl, ?_⟩
  intro h
  have h1 : RepeatStr (ascii "a") (-1) =
      .error (.explicit "strings: negative Repeat count") := rfl
  rw [h1] at h
  cases h

/-- C15 (amended): `RepeatStr s 0` returns the empty string without failing; for
`n < 0` it fails, `strings.Repeat` panicking on a negative count; for `n > 0`
with `len(s) * n` within `int` it returns `s` concatenated `n` times, a string
of `n * len(s)` bytes.  `RepeatStr "a" 3 = "aaa"`. -/
theorem RepeatStr_spec (s : GoString) (n : Int) :
    (n = 0 → RepeatStr s n = .ok []) ∧
    (n < 0 → RepeatStr s n = .error (.explicit "strings: negative Repeat count")) ∧
    (0 < n → (s.length : Int) * n ≤ maxInt →
      RepeatStr s n = .ok (List.replicate n.toNat s).flatten ∧
      (List.replicate n.toNat s).flatten.length = n.toNat * s.length) ∧
    (∀ k : Nat, (s.length : Int) * ((k : Int) + 1) ≤ maxInt →
      RepeatStr s ((k : Int) + 1) = (RepeatStr s k).map (fun r => s ++ r)) ∧
    RepeatStr (ascii "a") 3 = .ok (ascii "aaa") := by
  have hpos : ∀ m : Int, 0 < m → (s.length : Int) * m ≤ maxInt →
      RepeatStr s m = .ok (List.replicate m.toNat s).flatten := by
    intro m h0 h1
    unfold RepeatStr stringsRepeat
    rw [if_neg (by omega)]
    by_cases hone : m = 1
    · subst hone
      simp
    · rw [if_neg hone, if_neg (by omega), if_neg (by omega)]
  refine ⟨?_, ?_, ?_, ?_, rfl⟩
  · intro h
    subst h
    rfl
  · intro h
    unfold RepeatStr stringsRepeat
    rw [if_neg (by omega), if_neg (by omega), if_pos h]
  · intro h0 h1
    refine ⟨hpos n h0 h1, ?_⟩
    simp [List.length_flatten]
  · intro k hk
    rw [hpos _ (by omega) hk]
    have e1 : ((k : Int) + 1).toNat = k + 1 := by omega
    rw [e1, List.replicate_succ, List.flatten_cons]
    by_cases hk0 : k = 0
    · subst hk0
      rfl
    · have hle : (s.length : Int) * (k : Int) ≤ maxInt := by
        have hnn : (0 : Int) ≤ (s.length : Int) := Int.natCast_nonneg _
        nlinarith
      rw [hpos _ (by omega) hle, Int.toNat_ofNat]
      rfl

/-! ## Rounding to decimal digits -/

theorem wrapInt_IsInt (n : Int) : IsInt (wrapInt n) := by
  unfold IsInt minInt maxInt wrapInt
  omega

theorem PowInt_ten (n : Int) (hp : (10 : Int) ^ n.toNat ≤ maxInt) :
    PowInt 10 n = 10 ^ n.toNat := by
  have h := PowInt_eq_wrap_pow 10 n.toNat
  have e : PowInt 10 ((n.toNat : Nat) : Int) = PowInt 10 n := by
    unfold PowInt
    rw [Int.toNat_ofNat]
  rw [e] at h
  rw [h]
  apply wrapInt_of_IsInt
  refine ⟨?_, hp⟩
  have h0 : (0 : Int) ≤ 10 ^ n.toNat := by positivity
  unfold minInt
  omega

theorem roundHalfEven_intCast (m : Int) : roundHalfEven (m : ℚ) = m := by
  unfold roundHalfEven
  rw [Int.floor_intCast, sub_self, if_pos (by norm_num)]

theorem roundHalfEven_error (t : ℚ) : |(roundHalfEven t : ℚ) - t| ≤ 1 / 2 := by
  have h1 : (⌊t⌋ : ℚ) ≤ t := Int.floor_le t
  have h2 : t < (⌊t⌋ : ℚ) + 1 := Int.lt_floor_add_one t
  unfold roundHalfEven
  rw [abs_le]
  split_ifs with c1 c2 c3
  · constructor <;> linarith
  · push_cast
    constructor <;> linarith
  · constructor <;> linarith
  · push_cast
    constructor <;> linarith

theorem roundHalfEven_le (t : ℚ) (A : Int) (h : t ≤ (A : ℚ)) : roundHalfEven t ≤ A := by
  have h1 : (⌊t⌋ : ℚ) ≤ t := Int.floor_le t
  have hf : ⌊t⌋ ≤ A := by
    have : (⌊t⌋ : ℚ) ≤ (A : ℚ) := le_trans h1 h
    exact_mod_cast this
  by_cases heq : ⌊t⌋ = A
  · have ht : t = (A : ℚ) := le_antisymm h (heq ▸ h1)
    rw [ht, roundHalfEven_intCast]
  · have hlt : ⌊t⌋ + 1 ≤ A := by omega
    unfold roundHalfEven
    split_ifs <;> omega

theorem le_roundHalfEven (t : ℚ) (A : Int) (h : (A : ℚ) ≤ t) : A ≤ roundHalfEven t := by
  have hf : A ≤ ⌊t⌋ := Int.le_floor.mpr h
  unfold roundHalfEven
  split_ifs <;> omega

theorem two_zpow_pos (e : Int) : (0 : ℚ) < 2 ^ e := zpow_pos (by norm_num) e

theorem ulpExp_ge (q : ℚ) : -1074 ≤ ulpExp q := le_max_right _ _

theorem ulpExp_mono (y a : ℚ) (hy : 0 < y) (h : y ≤ a) : ulpExp y ≤ ulpExp a := by
  unfold ulpExp
  have h1 : Int.log 2 |y| ≤ Int.log 2 |a| := by
    rw [abs_of_pos hy, abs_of_pos (lt_of_lt_of_le hy h)]
    exact Int.log_mono_right hy h
  exact max_le_max (by omega) le_rfl

theorem roundMag_zero : roundMag 0 = 0 := by
  unfold roundMag
  rw [zero_div]
  have h := roundHalfEven_intCast 0
  rw [Int.cast_zero] at h
  rw [h, Int.cast_zero, zero_mul]

theorem roundMag_of_multiple (A : Int) (q : ℚ) (h : q = (A : ℚ) * 2 ^ ulpExp q) :
    roundMag q = q := by
  unfold roundMag
  have hq : q / 2 ^ ulpExp q = (A : ℚ) := by
    rw [div_eq_iff (ne_of_gt (two_zpow_pos _))]
    exact h
  rw [hq, roundHalfEven_intCast]
  exact h.symm

theorem multiple_of_le (m : Int) (e E : Int) (h : E ≤ e) :
    ∃ A : Int, (m : ℚ) * 2 ^ e = (A : ℚ) * 2 ^ E := by
  refine ⟨m * 2 ^ (e - E).toNat, ?_⟩
  have he : e = (((e - E).toNat : Nat) : Int) + E := by omega
  have h2 : (2 : ℚ) ^ e = 2 ^ (e - E).toNat * 2 ^ E := by
    conv_lhs => rw [he]
    rw [zpow_add₀ (by norm_num), zpow_natCast]
  rw [h2]
  push_cast
  ring

theorem ulpExp_le_of_binary64 (m e : Int) (hm : |m| < 9007199254740992) (he : -1074 ≤ e)
    (h0 : m ≠ 0) : ulpExp ((m : ℚ) * 2 ^ e) ≤ e := by
  unfold ulpExp
  apply max_le _ he
  have hpos : (0 : ℚ) < |(m : ℚ) * 2 ^ e| := by
    apply abs_pos.mpr
    apply mul_ne_zero
    · exact_mod_cast h0
    · exact ne_of_gt (two_zpow_pos e)
  have hlt : |(m : ℚ) * 2 ^ e| < (2 : ℚ) ^ (53 + e) := by
    rw [abs_mul, abs_of_pos (two_zpow_pos e), zpow_add₀ (by norm_num)]
    apply mul_lt_mul_of_pos_right _ (two_zpow_pos e)
    have : (|m| : ℚ) < 9007199254740992 := by exact_mod_cast hm
    rw [← Int.cast_abs]
    norm_num
    exact_mod_cast hm
  have hlog : Int.log 2 |(m : ℚ) * 2 ^ e| < 53 + e := by
    rw [← Int.lt_zpow_iff_log_lt (by norm_num) hpos]
    exact_mod_cast hlt
  omega

theorem roundMag_of_binary64 (q : ℚ) (hq : IsBinary64 q) : roundMag q = q := by
  obtain ⟨m, e, hm, he, -, rfl⟩ := hq
  by_cases h0 : m = 0
  · subst h0
    simp [roundMag_zero]
  · obtain ⟨A, hA⟩ := multiple_of_le m e _ (ulpExp_le_of_binary64 m e hm he h0)
    exact roundMag_of_multiple A _ hA

theorem roundMag_error (y : ℚ) : |roundMag y - y| ≤ 2 ^ ulpExp y / 2 := by
  have hE := two_zpow_pos (ulpExp y)
  have h := roundHalfEven_error (y / 2 ^ ulpExp y)
  unfold roundMag
  have e : (roundHalfEven (y / 2 ^ ulpExp y) : ℚ) * 2 ^ ulpExp y - y =
      ((roundHalfEven (y / 2 ^ ulpExp y) : ℚ) - y / 2 ^ ulpExp y) * 2 ^ ulpExp y := by
    field_simp
  rw [e, abs_mul, abs_of_pos hE]
  calc |(roundHalfEven (y / 2 ^ ulpExp y) : ℚ) - y / 2 ^ ulpExp y| * 2 ^ ulpExp y
      ≤ 1 / 2 * 2 ^ ulpExp y := mul_le_mul_of_nonneg_right h (le_of_lt hE)
    _ = 2 ^ ulpExp y / 2 := by ring

theorem ulp_le_of_normal (y : ℚ) (hy : (2 : ℚ) ^ (-1022 : Int) ≤ y) :
    (2 : ℚ) ^ ulpExp y ≤ y * 2 ^ (-52 : Int) := by
  have hpos : 0 < y := lt_of_lt_of_le (two_zpow_pos _) hy
  have hlog : (-1022 : Int) ≤ Int.log 2 y := by
    rw [← Int.zpow_le_iff_le_log (by norm_num) hpos]
    exact_mod_cast hy
  have hE : ulpExp y = Int.log 2 y - 52 := by
    unfold ulpExp
    rw [abs_of_pos hpos]
    exact max_eq_left (by omega)
  rw [hE, sub_eq_add_neg, zpow_add₀ (by norm_num)]
  apply mul_le_mul_of_nonneg_right _ (le_of_lt (two_zpow_pos _))
  have h := Int.zpow_log_le_self (b := 2) (by norm_num) hpos
  exact_mod_cast h

theorem roundMag_rel_error (y : ℚ) (hy : (2 : ℚ) ^ (-1022 : Int) ≤ y) :
    |roundMag y - y| ≤ y * 2 ^ (-53 : Int) := by
  have h1 := roundMag_error y
  have h2 := ulp_le_of_normal y hy
  have e : y * (2 : ℚ) ^ (-53 : Int) = y * 2 ^ (-52 : Int) / 2 := by
    rw [show (-53 : Int) = -52 + -1 by norm_num, zpow_add₀ (by norm_num)]
    norm_num
    ring
  rw [e]
  exact le_trans h1 (div_le_div_of_nonneg_right h2 (by norm_num))

theorem roundMag_nonneg (y : ℚ) (hy : 0 ≤ y) : 0 ≤ roundMag y := by
  unfold roundMag
  apply mul_nonneg _ (le_of_lt (two_zpow_pos _))
  have h : (0 : Int) ≤ roundHalfEven (y / 2 ^ ulpExp y) := by
    apply le_roundHalfEven
    rw [Int.cast_zero]
    exact div_nonneg hy (le_of_lt (two_zpow_pos _))
  exact_mod_cast h

theorem roundMag_le_of_le (y a : ℚ) (hy : 0 ≤ y) (h : y ≤ a) (ha : IsBinary64 a) :
    roundMag y ≤ a := by
  rcases eq_or_lt_of_le hy with h0 | hpos
  · rw [← h0, roundMag_zero]
    exact le_trans hy h
  · obtain ⟨m, e, hm, he, -, rfl⟩ := ha
    have hapos : (0 : ℚ) < (m : ℚ) * 2 ^ e := lt_of_lt_of_le hpos h
    have hm0 : m ≠ 0 := by
      rintro rfl
      simp at hapos
    have hE : ulpExp y ≤ e :=
      le_trans (ulpExp_mono y _ hpos h) (ulpExp_le_of_binary64 m e hm he hm0)
    obtain ⟨A, hA⟩ := multiple_of_le m e _ hE
    rw [hA] at h ⊢
    unfold roundMag
    apply mul_le_mul_of_nonneg_right _ (le_of_lt (two_zpow_pos _))
    have hle : roundHalfEven (y / 2 ^ ulpExp y) ≤ A := by
      apply roundHalfEven_le
      rw [div_le_iff₀ (two_zpow_pos _)]
      exact h
    exact_mod_cast hle

theorem le_roundMag_of_le (y a : ℚ) (ha0 : 0 ≤ a) (h : a ≤ y) (ha : IsBinary64 a) :
    a ≤ roundMag y := by
  rcases eq_or_lt_of_le ha0 with h0 | hapos
  · rw [← h0]
    exact roundMag_nonneg y (le_trans ha0 h)
  · have hypos : 0 < y := lt_of_lt_of_le hapos h
    obtain ⟨m, e, hm, he, -, rfl⟩ := ha
    have key : ∀ A : Int, (A : ℚ) * 2 ^ ulpExp y ≤ y → (A : ℚ) * 2 ^ ulpExp y ≤ roundMag y := by
      intro A hA
      unfold roundMag
      apply mul_le_mul_of_nonneg_right _ (le_of_lt (two_zpow_pos _))
      have hle : A ≤ roundHalfEven (y / 2 ^ ulpExp y) := by
        apply le_roundHalfEven
        rw [le_div_iff₀ (two_zpow_pos _)]
        exact hA
      exact_mod_cast hle
    by_cases hE : ulpExp y ≤ e
    · obtain ⟨A, hA⟩ := multiple_of_le m e _ hE
      rw [hA] at h ⊢
      exact key A h
    · have hEe : e + 1 ≤ ulpExp y := by omega
      have hlogE : ulpExp y = Int.log 2 y - 52 := by
        unfold ulpExp at hEe ⊢
        rw [abs_of_pos hypos] at hEe ⊢
        apply max_eq_left
        by_contra hc
        rw [max_eq_right (by omega)] at hEe
        omega
      have h2L : (2 : ℚ) ^ Int.log 2 y ≤ y := by
        have h := Int.zpow_log_le_self (b := 2) (R := ℚ) (by norm_num) hypos
        exact_mod_cast h
      have hpow : (2 : ℚ) ^ Int.log 2 y = ((4503599627370496 : Int) : ℚ) * 2 ^ ulpExp y := by
        rw [hlogE, sub_eq_add_neg, zpow_add₀ (by norm_num)]
        norm_num
        rw [mul_comm, mul_assoc]
        norm_num
      have h3 := key 4503599627370496 (by rw [← hpow]; exact h2L)
      rw [← hpow] at h3
      have halt : (m : ℚ) * 2 ^ e < (2 : ℚ) ^ Int.log 2 y := by
        have hmq : (m : ℚ) < 9007199254740992 := by
          have : m < 9007199254740992 := lt_of_le_of_lt (le_abs_self m) hm
          exact_mod_cast this
        have h4 : (m : ℚ) * 2 ^ e < 9007199254740992 * 2 ^ e :=
          mul_lt_mul_of_pos_right hmq (two_zpow_pos e)
        have h5 : (9007199254740992 : ℚ) * 2 ^ e = 2 ^ (53 + e) := by
          rw [zpow_add₀ (by norm_num)]
          norm_num
        have h6 : (2 : ℚ) ^ (53 + e) ≤ 2 ^ Int.log 2 y :=
          zpow_le_zpow_right₀ (by norm_num) (by omega)
        linarith
      linarith

theorem IsBinary64.abs_lt (q : ℚ) (hq : IsBinary64 q) : |q| < (2 : ℚ) ^ (1024 : Nat) := by
  obtain ⟨m, e, hm, -, he, rfl⟩ := hq
  have hmq : |(m : ℚ)| < 9007199254740992 := by
    rw [← Int.cast_abs]
    exact_mod_cast hm
  have h1 : (2 : ℚ) ^ e ≤ 2 ^ (971 : Int) := zpow_le_zpow_right₀ (by norm_num) he
  have h2 : (2 : ℚ) ^ (1024 : Nat) = 9007199254740992 * 2 ^ (971 : Int) := by
    rw [show (9007199254740992 : ℚ) = 2 ^ (53 : Int) by norm_num, ← zpow_add₀ (by norm_num)]
    norm_num
  rw [abs_mul, abs_of_pos (two_zpow_pos e), h2]
  calc |(m : ℚ)| * 2 ^ e ≤ |(m : ℚ)| * 2 ^ (971 : Int) :=
        mul_le_mul_of_nonneg_left h1 (abs_nonneg _)
    _ < 9007199254740992 * 2 ^ (971 : Int) :=
        mul_lt_mul_of_pos_right hmq (two_zpow_pos _)

theorem IsBinary64.of_int (k : Int) (hk : |k| < 9007199254740992) : IsBinary64 (k : ℚ) :=
  ⟨k, 0, hk, by norm_num, by norm_num, by simp⟩

theorem IsBinary64.of_quarters (k : Int) (hk : |k| < 9007199254740992) :
    IsBinary64 ((k : ℚ) / 4) :=
  ⟨k, -2, hk, by norm_num, by norm_num, by
    rw [show (2 : ℚ) ^ (-2 : Int) = 1 / 4 by norm_num]
    ring⟩

theorem round64_of_binary64 (s : Bool) (q : ℚ) (hq : IsBinary64 q) (h0 : q ≠ 0) :
    round64 s q = .num q := by
  unfold round64
  rw [roundMag_of_binary64 q hq, if_neg (not_le.mpr (IsBinary64.abs_lt q hq)), if_neg h0]

theorem round64_false_nonneg (q a : ℚ) (h0 : 0 ≤ q) (h : q ≤ a) (ha : IsBinary64 a) :
    round64 false q = .num (roundMag q) := by
  have hr0 := roundMag_nonneg q h0
  have hra := roundMag_le_of_le q a h0 h ha
  have hlt : roundMag q < (2 : ℚ) ^ (1024 : Nat) :=
    lt_of_le_of_lt hra (lt_of_le_of_lt (le_abs_self a) (IsBinary64.abs_lt a ha))
  unfold round64
  rw [abs_of_nonneg hr0, if_neg (not_le.mpr hlt)]
  by_cases hz : roundMag q = 0
  · rw [if_pos hz, if_neg, hz]
    rintro (h1 | ⟨-, h2⟩)
    · exact absurd h1 (not_lt.mpr h0)
    · cases h2
  · rw [if_neg hz]

theorem fmul_num_nonneg (a b : ℚ) (ha : 0 ≤ a) (hb : 0 ≤ b) :
    fmul (.num a) (.num b) = round64 false (a * b) := by
  simp [fmul, Float64.isNan, Float64.isInf, Float64.isNeg, Float64.toRat,
    not_lt.mpr ha, not_lt.mpr hb]

theorem fadd_num_nonneg (a b : ℚ) (hb : 0 ≤ b) :
    fadd (.num a) (.num b) = round64 false (a + b) := by
  simp [fadd, Float64.isNan, Float64.isInf, Float64.isNeg, Float64.toRat, not_lt.mpr hb]

theorem ffma_num_nonneg (a b c : ℚ) (hc : 0 ≤ c) :
    ffma (.num a) (.num b) (.num c) = round64 false (a * b + c) := by
  simp [ffma, Float64.isFinite, Float64.isNeg, Float64.toRat, not_lt.mpr hc]

theorem fdiv_num_nonneg (a b : ℚ) (ha : 0 ≤ a) (hb : 0 < b) :
    fdiv (.num a) (.num b) = round64 false (a / b) := by
  simp [fdiv, Float64.isNan, Float64.isInf, Float64.isZero, Float64.isNeg, Float64.toRat,
    not_lt.mpr ha, not_lt.mpr (le_of_lt hb), ne_of_gt hb]

theorem floatToInt_num_nonneg (impl : Float64 → Int) (q : ℚ) (h0 : 0 ≤ q)
    (h1 : q < 9223372036854775808) : floatToInt impl (.num q) = ⌊q⌋ := by
  have ht : truncate q = ⌊q⌋ := by
    unfold truncate
    rw [if_pos h0]
  have hi : IsInt ⌊q⌋ := by
    have hlo : (0 : Int) ≤ ⌊q⌋ := Int.floor_nonneg.mpr h0
    have hhi : ⌊q⌋ < 9223372036854775808 := by
      rw [Int.floor_lt]
      exact_mod_cast h1
    unfold IsInt minInt maxInt
    omega
  unfold floatToInt
  simp only [Float64.toRat, Float64.isFinite, ht]
  rw [if_pos ⟨trivial, hi⟩]

theorem toNat_le_18 (n : Int) (hp : (10 : Int) ^ n.toNat ≤ maxInt) : n.toNat ≤ 18 := by
  by_contra hc
  have h19 : 19 ≤ n.toNat := by omega
  have h : (10 : Int) ^ 19 ≤ 10 ^ n.toNat := pow_le_pow_right₀ (by norm_num) h19
  unfold maxInt at hp
  norm_num at h
  omega

theorem IsBinary64.ten_pow (k : Nat) (hk : k ≤ 18) : IsBinary64 ((10 : ℚ) ^ k) := by
  refine ⟨5 ^ k, k, ?_, by omega, by omega, ?_⟩
  · have h : (5 : Int) ^ k ≤ 5 ^ 18 := pow_le_pow_right₀ (by norm_num) hk
    have h0 : (0 : Int) ≤ 5 ^ k := by positivity
    rw [abs_of_nonneg h0]
    norm_num at h
    omega
  · rw [zpow_natCast]
    push_cast
    rw [← mul_pow]
    norm_num

theorem ten_pow_bounds (k : Nat) (hk : k ≤ 18) :
    (1 : ℚ) ≤ 10 ^ k ∧ (10 : ℚ) ^ k ≤ 1000000000000000000 := by
  constructor
  · exact one_le_pow₀ (by norm_num)
  · have h : (10 : ℚ) ^ k ≤ 10 ^ 18 := pow_le_pow_right₀ (by norm_num) hk
    norm_num at h
    exact h

theorem scale_eq (n : Int) (hp : (10 : Int) ^ n.toNat ≤ maxInt) :
    intToFloat (PowInt 10 n) = .num ((10 : ℚ) ^ n.toNat) := by
  have hk := toNat_le_18 n hp
  rw [PowInt_ten n hp]
  unfold intToFloat
  push_cast
  exact round64_of_binary64 false _ (IsBinary64.ten_pow _ hk)
    (ne_of_gt (lt_of_lt_of_le (by norm_num) (ten_pow_bounds _ hk).1))

theorem sum_nonneg_bound (y a : ℚ) (hy : 0 ≤ y) (h : y ≤ a) (ha : IsBinary64 a) :
    0 ≤ roundMag y ∧ roundMag y ≤ a ∧ round64 false y = .num (roundMag y) :=
  ⟨roundMag_nonneg y hy, roundMag_le_of_le y a hy h ha, round64_false_nonneg y a hy h ha⟩

theorem binary64_two_pow_50 : IsBinary64 1125899906842624 :=
  ⟨1125899906842624, 0, by norm_num, by norm_num, by norm_num, by norm_num⟩

theorem binary64_two_pow_50_half : IsBinary64 (1125899906842624 + 1 / 2) :=
  ⟨2251799813685249, -1, by norm_num, by norm_num, by norm_num, by norm_num⟩

theorem RoundFloat_unfused_num (impl : Float64 → Int) (q : ℚ) (n : Int) (hq : 0 ≤ q)
    (hp : (10 : Int) ^ n.toNat ≤ maxInt) (hb : q * 10 ^ n.toNat ≤ 1125899906842624) :
    RoundFloat false impl (.num q) n =
      .num (roundMag ((⌊roundMag (roundMag (q * 10 ^ n.toNat) + 1 / 2)⌋ : ℚ) / 10 ^ n.toNat)) := by
  have hk := toNat_le_18 n hp
  obtain ⟨hS1, hS2⟩ := ten_pow_bounds _ hk
  have hS0 : (0 : ℚ) < 10 ^ n.toNat := lt_of_lt_of_le (by norm_num) hS1
  obtain ⟨p0, pB, pe⟩ := sum_nonneg_bound _ _ (mul_nonneg hq (le_of_lt hS0)) hb
    binary64_two_pow_50
  obtain ⟨s0, sB, se⟩ := sum_nonneg_bound (roundMag (q * 10 ^ n.toNat) + 1 / 2) _
    (by linarith) (by linarith) binary64_two_pow_50_half
  have hf0 : (0 : Int) ≤ ⌊roundMag (roundMag (q * 10 ^ n.toNat) + 1 / 2)⌋ :=
    Int.floor_nonneg.mpr s0
  have hfq : ((⌊roundMag (roundMag (q * 10 ^ n.toNat) + 1 / 2)⌋ : Int) : ℚ) ≤
      1125899906842624 + 1 / 2 := le_trans (Int.floor_le _) sB
  have hfq0 : (0 : ℚ) ≤ ((⌊roundMag (roundMag (q * 10 ^ n.toNat) + 1 / 2)⌋ : Int) : ℚ) := by
    exact_mod_cast hf0
  obtain ⟨-, -, ke⟩ := sum_nonneg_bound _ _ hfq0 hfq binary64_two_pow_50_half
  have hkb : IsBinary64 ((⌊roundMag (roundMag (q * 10 ^ n.toNat) + 1 / 2)⌋ : Int) : ℚ) := by
    apply IsBinary64.of_int
    rw [abs_of_nonneg hf0]
    have h : ⌊roundMag (roundMag (q * 10 ^ n.toNat) + 1 / 2)⌋ < 1125899906842625 := by
      rw [Int.floor_lt]
      push_cast
      linarith
    omega
  obtain ⟨-, -, de⟩ := sum_nonneg_bound
    (((⌊roundMag (roundMag (q * 10 ^ n.toNat) + 1 / 2)⌋ : Int) : ℚ) / 10 ^ n.toNat) _
    (div_nonneg hfq0 (le_of_lt hS0))
    (by rw [div_le_iff₀ hS0]; nlinarith) binary64_two_pow_50_half
  unfold RoundFloat
  simp only [scale_eq n hp, Bool.false_eq_true, if_false]
  rw [fmul_num_nonneg _ _ hq (le_of_lt hS0), pe, fadd_num_nonneg _ _ (by norm_num), se,
    floatToInt_num_nonneg impl _ s0 (by linarith)]
  unfold intToFloat
  rw [ke, roundMag_of_binary64 _ hkb, fdiv_num_nonneg _ _ hfq0 hS0, de]

theorem RoundFloat_fused_num (impl : Float64 → Int) (q : ℚ) (n : Int) (hq : 0 ≤ q)
    (hp : (10 : Int) ^ n.toNat ≤ maxInt) (hb : q * 10 ^ n.toNat ≤ 1125899906842624) :
    RoundFloat true impl (.num q) n =
      .num (roundMag ((⌊roundMag (q * 10 ^ n.toNat + 1 / 2)⌋ : ℚ) / 10 ^ n.toNat)) := by
  have hk := toNat_le_18 n hp
  obtain ⟨hS1, hS2⟩ := ten_pow_bounds _ hk
  have hS0 : (0 : ℚ) < 10 ^ n.toNat := lt_of_lt_of_le (by norm_num) hS1
  have p0 : 0 ≤ q * 10 ^ n.toNat := mul_nonneg hq (le_of_lt hS0)
  obtain ⟨s0, sB, se⟩ := sum_nonneg_bound (q * 10 ^ n.toNat + 1 / 2) _
    (by linarith) (by linarith) binary64_two_pow_50_half
  have hf0 : (0 : Int) ≤ ⌊roundMag (q * 10 ^ n.toNat + 1 / 2)⌋ := Int.floor_nonneg.mpr s0
  have hfq : ((⌊roundMag (q * 10 ^ n.toNat + 1 / 2)⌋ : Int) : ℚ) ≤
      1125899906842624 + 1 / 2 := le_trans (Int.floor_le _) sB
  have hfq0 : (0 : ℚ) ≤ ((⌊roundMag (q * 10 ^ n.toNat + 1 / 2)⌋ : Int) : ℚ) := by
    exact_mod_cast hf0
  obtain ⟨-, -, ke⟩ := sum_nonneg_bound _ _ hfq0 hfq binary64_two_pow_50_half
  have hkb : IsBinary64 ((⌊roundMag (q * 10 ^ n.toNat + 1 / 2)⌋ : Int) : ℚ) := by
    apply IsBinary64.of_int
    rw [abs_of_nonneg hf0]
    have h : ⌊roundMag (q * 10 ^ n.toNat + 1 / 2)⌋ < 1125899906842625 := by
      rw [Int.floor_lt]
      push_cast
      linarith
    omega
  obtain ⟨-, -, de⟩ := sum_nonneg_bound
    (((⌊roundMag (q * 10 ^ n.toNat + 1 / 2)⌋ : Int) : ℚ) / 10 ^ n.toNat) _
    (div_nonneg hfq0 (le_of_lt hS0))
    (by rw [div_le_iff₀ hS0]; nlinarith) binary64_two_pow_50_half
  unfold RoundFloat
  simp only [scale_eq n hp, if_true]
  rw [ffma_num_nonneg _ _ _ (by norm_num), se, floatToInt_num_nonneg impl _ s0 (by linarith)]
  unfold intToFloat
  rw [ke, roundMag_of_binary64 _ hkb, fdiv_num_nonneg _ _ hfq0 hS0, de]

theorem two_zpow_neg_53 : (2 : ℚ) ^ (-53 : Int) = 1 / 9007199254740992 := by
  rw [zpow_neg, show ((53 : Int)) = ((53 : Nat) : Int) by norm_num, zpow_natCast]
  norm_num

theorem tiny_le (y : ℚ) (hy : 1 / 1000000000000000000 ≤ y) : (2 : ℚ) ^ (-1022 : Int) ≤ y := by
  have h1 : (2 : ℚ) ^ (-1022 : Int) ≤ 2 ^ (-60 : Int) :=
    zpow_le_zpow_right₀ (by norm_num) (by norm_num)
  have h2 : (2 : ℚ) ^ (-60 : Int) = 1 / 1152921504606846976 := by
    rw [zpow_neg, show ((60 : Int)) = ((60 : Nat) : Int) by norm_num, zpow_natCast]
    norm_num
  rw [h2] at h1
  have h3 : (1 : ℚ) / 1152921504606846976 ≤ 1 / 1000000000000000000 := by norm_num
  exact le_trans h1 (le_trans h3 hy)

theorem floor_roundMag_between (z : ℚ) (k : Int) (hk0 : 0 ≤ k) (hk : k ≤ 562949953421312)
    (h1 : (k : ℚ) + 1 / 4 ≤ z) (h2 : z ≤ (k : ℚ) + 3 / 4) : ⌊roundMag z⌋ = k := by
  have hkq : (0 : ℚ) ≤ (k : ℚ) := by exact_mod_cast hk0
  have b1 : IsBinary64 ((k : ℚ) + 1 / 4) := by
    have h := IsBinary64.of_quarters (4 * k + 1) (by rw [abs_of_nonneg (by omega)]; omega)
    have e : (((4 * k + 1 : Int)) : ℚ) / 4 = (k : ℚ) + 1 / 4 := by
      push_cast
      ring
    rw [e] at h
    exact h
  have b2 : IsBinary64 ((k : ℚ) + 3 / 4) := by
    have h := IsBinary64.of_quarters (4 * k + 3) (by rw [abs_of_nonneg (by omega)]; omega)
    have e : (((4 * k + 3 : Int)) : ℚ) / 4 = (k : ℚ) + 3 / 4 := by
      push_cast
      ring
    rw [e] at h
    exact h
  have l1 := le_roundMag_of_le z _ (by linarith) h1 b1
  have l2 := roundMag_le_of_le z _ (by linarith) h2 b2
  rw [Int.floor_eq_iff]
  constructor <;> linarith

theorem second_pass (k : Int) (S : ℚ) (hk0 : 0 ≤ k) (hk : k ≤ 562949953421312)
    (hS1 : 1 ≤ S) (hS2 : S ≤ 1000000000000000000) :
    0 ≤ roundMag ((k : ℚ) / S) ∧ roundMag ((k : ℚ) / S) * S ≤ 1125899906842624 ∧
    ⌊roundMag (roundMag ((k : ℚ) / S) * S + 1 / 2)⌋ = k ∧
    ⌊roundMag (roundMag (roundMag ((k : ℚ) / S) * S) + 1 / 2)⌋ = k := by
  have hS0 : (0 : ℚ) < S := by linarith
  have hkq0 : (0 : ℚ) ≤ (k : ℚ) := by exact_mod_cast hk0
  have hkq : (k : ℚ) ≤ 562949953421312 := by exact_mod_cast hk
  have hr0 : 0 ≤ roundMag ((k : ℚ) / S) := roundMag_nonneg _ (div_nonneg hkq0 (le_of_lt hS0))
  by_cases hz : k = 0
  · subst hz
    have e1 : roundMag (((0 : Int) : ℚ) / S) = 0 := by
      rw [Int.cast_zero, zero_div, roundMag_zero]
    have hhalf : IsBinary64 (1 / 2) := ⟨1, -1, by norm_num, by norm_num, by norm_num, by norm_num⟩
    have e2 : ⌊roundMag ((0 : ℚ) + 1 / 2)⌋ = 0 := by
      rw [zero_add, roundMag_of_binary64 _ hhalf, Int.floor_eq_iff]
      norm_num
    rw [e1, zero_mul, roundMag_zero]
    exact ⟨le_rfl, by norm_num, e2, e2⟩
  · have hk1 : (1 : ℚ) ≤ (k : ℚ) := by
      have : 1 ≤ k := by omega
      exact_mod_cast this
    have hy : (1 : ℚ) / 1000000000000000000 ≤ (k : ℚ) / S := by
      rw [le_div_iff₀ hS0]
      have h : (1 : ℚ) / 1000000000000000000 * S ≤ 1 := by
        rw [div_mul_eq_mul_div, div_le_iff₀ (by norm_num)]
        linarith
      linarith
    have hrel := roundMag_rel_error _ (tiny_le _ hy)
    rw [two_zpow_neg_53] at hrel
    have hw : |roundMag ((k : ℚ) / S) * S - (k : ℚ)| ≤ 1 / 16 := by
      have e : roundMag ((k : ℚ) / S) * S - (k : ℚ) = (roundMag ((k : ℚ) / S) - (k : ℚ) / S) * S := by
        field_simp
      rw [e, abs_mul, abs_of_pos hS0]
      have h1 : |roundMag ((k : ℚ) / S) - (k : ℚ) / S| * S ≤
          (k : ℚ) / S * (1 / 9007199254740992) * S :=
        mul_le_mul_of_nonneg_right hrel (le_of_lt hS0)
      have h2 : (k : ℚ) / S * (1 / 9007199254740992) * S = (k : ℚ) / 9007199254740992 := by
        field_simp
        ring
      rw [h2] at h1
      linarith
    rw [abs_le] at hw
    obtain ⟨hw1, hw2⟩ := hw
    have hwpos : (15 : ℚ) / 16 ≤ roundMag ((k : ℚ) / S) * S := by linarith
    have hrel2 := roundMag_rel_error (roundMag ((k : ℚ) / S) * S)
      (tiny_le _ (by linarith))
    rw [two_zpow_neg_53, abs_le] at hrel2
    obtain ⟨hp1, hp2⟩ := hrel2
    refine ⟨hr0, by linarith, ?_, ?_⟩
    · exact floor_roundMag_between _ k hk0 hk (by linarith) (by linarith)
    · exact floor_roundMag_between _ k hk0 hk (by linarith) (by linarith)

theorem fmul_num (a b : ℚ) :
    fmul (.num a) (.num b) = round64 (xor (decide (a < 0)) (decide (b < 0))) (a * b) := by
  simp [fmul, Float64.isNan, Float64.isInf, Float64.isNeg, Float64.toRat]

theorem fadd_num (a b : ℚ) :
    fadd (.num a) (.num b) = round64 (decide (a < 0) && decide (b < 0)) (a + b) := by
  simp [fadd, Float64.isNan, Float64.isInf, Float64.isNeg, Float64.toRat]

theorem ffma_num (a b c : ℚ) :
    ffma (.num a) (.num b) (.num c) =
      round64 (xor (decide (a < 0)) (decide (b < 0)) && decide (c < 0)) (a * b + c) := by
  simp [ffma, Float64.isFinite, Float64.isNeg, Float64.toRat]

theorem fdiv_num (a b : ℚ) (hb : b ≠ 0) :
    fdiv (.num a) (.num b) = round64 (xor (decide (a < 0)) (decide (b < 0))) (a / b) := by
  simp [fdiv, Float64.isNan, Float64.isInf, Float64.isZero, Float64.isNeg, Float64.toRat, hb]

theorem mulAdd_num (fused : Bool) (a b c : ℚ) (hab : IsBinary64 (a * b)) (h0 : a * b ≠ 0)
    (hs : IsBinary64 (a * b + c)) (hs0 : a * b + c ≠ 0) :
    (if fused then ffma (.num a) (.num b) (.num c)
      else fadd (fmul (.num a) (.num b)) (.num c)) = .num (a * b + c) := by
  cases fused
  · simp only [Bool.false_eq_true, if_false]
    rw [fmul_num, round64_of_binary64 _ _ hab h0, fadd_num, round64_of_binary64 _ _ hs hs0]
  · simp only [if_true]
    rw [ffma_num, round64_of_binary64 _ _ hs hs0]

theorem floatToInt_num (impl : Float64 → Int) (q : ℚ) (h : IsInt (truncate q)) :
    floatToInt impl (.num q) = truncate q := by
  unfold floatToInt
  simp only [Float64.toRat, Float64.isFinite]
  rw [if_pos ⟨trivial, h⟩]

theorem binary64_small (m e : Int) (q : ℚ) (hm : |m| < 9007199254740992) (he1 : -1074 ≤ e)
    (he2 : e ≤ 971) (h : q = (m : ℚ) * 2 ^ e) : IsBinary64 q :=
  ⟨m, e, hm, he1, he2, h⟩

/-- `RoundFloat(-1.5, 0)` is `-1`, and rounding that result again gives
`RoundFloat(-1, 0) = 0`, the conversion to `int` truncating `-0.5` toward zero;
every value involved is exact in binary64, with and without fusing. -/
theorem RoundFloat_neg_three_halves :
    IsBinary64 (-3 / 2) ∧
    (∀ (fused : Bool) (impl : Float64 → Int),
      RoundFloat fused impl (.num (-3 / 2)) 0 = .num (-1)) ∧
    (∀ (fused : Bool) (impl : Float64 → Int), RoundFloat fused impl (.num (-1)) 0 = .num 0) ∧
    (∀ (fused : Bool) (impl : Float64 → Int),
      RoundFloat fused impl (RoundFloat fused impl (.num (-3 / 2)) 0) 0 ≠
        RoundFloat fused impl (.num (-3 / 2)) 0) ∧
    (∀ (fused : Bool) (impl : Float64 → Int),
      floatEq (RoundFloat fused impl (RoundFloat fused impl (.num (-3 / 2)) 0) 0)
        (RoundFloat fused impl (.num (-3 / 2)) 0) = false) := by
  have b32 : IsBinary64 (-3 / 2) := binary64_small (-3) (-1) _ (by norm_num) (by norm_num)
    (by norm_num) (by norm_num)
  have b1 : IsBinary64 (-1) := binary64_small (-1) 0 _ (by norm_num) (by norm_num)
    (by norm_num) (by norm_num)
  have b12 : IsBinary64 (-1 / 2) := binary64_small (-1) (-1) _ (by norm_num) (by norm_num)
    (by norm_num) (by norm_num)
  have hscale : intToFloat (PowInt 10 0) = .num 1 := by
    have h := scale_eq 0 (by decide)
    simpa using h
  have t1 : truncate (-1) = -1 := by
    unfold truncate
    rw [if_neg (by norm_num), Int.ceil_eq_iff]
    norm_num
  have t2 : truncate (-1 / 2) = 0 := by
    unfold truncate
    rw [if_neg (by norm_num), Int.ceil_eq_iff]
    norm_num
  have i1 : intToFloat (-1) = .num (-1) := by
    unfold intToFloat
    push_cast
    exact round64_of_binary64 _ _ b1 (by norm_num)
  have i0 : intToFloat 0 = .num 0 := by
    unfold intToFloat
    have h := round64_false_nonneg 0 0 le_rfl le_rfl
      (binary64_small 0 0 _ (by norm_num) (by norm_num) (by norm_num) (by norm_num))
    rw [roundMag_zero] at h
    exact_mod_cast h
  have d1 : fdiv (.num (-1)) (.num 1) = .num (-1) := by
    rw [fdiv_num _ _ (by norm_num), div_one]
    exact round64_of_binary64 _ _ b1 (by norm_num)
  have d0 : fdiv (.num 0) (.num 1) = .num 0 := by
    rw [fdiv_num _ _ (by norm_num), div_one]
    have h := round64_false_nonneg 0 0 le_rfl le_rfl
      (binary64_small 0 0 _ (by norm_num) (by norm_num) (by norm_num) (by norm_num))
    rw [roundMag_zero] at h
    simpa using h
  have r1 : ∀ (fused : Bool) (impl : Float64 → Int),
      RoundFloat fused impl (.num (-3 / 2)) 0 = .num (-1) := by
    intro fused impl
    have hm := mulAdd_num fused (-3 / 2) 1 (1 / 2) (by rw [mul_one]; exact b32) (by norm_num)
      (by rw [show (-3 / 2 : ℚ) * 1 + 1 / 2 = -1 by norm_num]; exact b1) (by norm_num)
    have e : (-3 / 2 : ℚ) * 1 + 1 / 2 = -1 := by norm_num
    rw [e] at hm
    unfold RoundFloat
    simp only [hscale]
    rw [hm, floatToInt_num impl _ (by rw [t1]; decide), t1, i1, d1]
  have r2 : ∀ (fused : Bool) (impl : Float64 → Int),
      RoundFloat fused impl (.num (-1)) 0 = .num 0 := by
    intro fused impl
    have hm := mulAdd_num fused (-1) 1 (1 / 2) (by rw [mul_one]; exact b1) (by norm_num)
      (by rw [show (-1 : ℚ) * 1 + 1 / 2 = -1 / 2 by norm_num]; exact b12) (by norm_num)
    have e : (-1 : ℚ) * 1 + 1 / 2 = -1 / 2 := by norm_num
    rw [e] at hm
    unfold RoundFloat
    simp only [hscale]
    rw [hm, floatToInt_num impl _ (by rw [t2]; decide), t2, i0, d0]
  refine ⟨b32, r1, r2, ?_, ?_⟩
  · intro fused impl
    rw [r1, r2]
    intro h
    injection h with h
    norm_num at h
  · intro fused impl
    rw [r1, r2]
    simp [floatEq, Float64.isNan, Float64.isZero]

theorem binary64_two_pow_49 : IsBinary64 562949953421312 :=
  ⟨562949953421312, 0, by norm_num, by norm_num, by norm_num, by norm_num⟩

theorem binary64_two_pow_49_half : IsBinary64 (562949953421312 + 1 / 2) :=
  ⟨1125899906842625, -1, by norm_num, by norm_num, by norm_num, by norm_num⟩

theorem floor_sum_bounds (t : ℚ) (h0 : 0 ≤ t) (hB : t ≤ 562949953421312 + 1 / 2) :
    0 ≤ ⌊t⌋ ∧ ⌊t⌋ ≤ 562949953421312 := by
  refine ⟨Int.floor_nonneg.mpr h0, ?_⟩
  have h : ⌊t⌋ < 562949953421313 := by
    rw [Int.floor_lt]
    push_cast
    linarith
  omega

theorem RoundFloat_twice_num (fused : Bool) (impl : Float64 → Int) (q : ℚ) (n : Int)
    (hq : 0 ≤ q) (hp : (10 : Int) ^ n.toNat ≤ maxInt)
    (hb : q * 10 ^ n.toNat ≤ 562949953421312) :
    RoundFloat fused impl (RoundFloat fused impl (.num q) n) n =
      RoundFloat fused impl (.num q) n ∧
    ∃ r : ℚ, 0 ≤ r ∧ RoundFloat fused impl (.num q) n = .num r := by
  have hk := toNat_le_18 n hp
  obtain ⟨hS1, hS2⟩ := ten_pow_bounds _ hk
  have hS0 : (0 : ℚ) < 10 ^ n.toNat := lt_of_lt_of_le (by norm_num) hS1
  have hqS : 0 ≤ q * 10 ^ n.toNat := mul_nonneg hq (le_of_lt hS0)
  have hb50 : q * 10 ^ n.toNat ≤ 1125899906842624 := le_trans hb (by norm_num)
  cases fused
  · have p0 := roundMag_nonneg _ hqS
    have pB := roundMag_le_of_le _ _ hqS hb binary64_two_pow_49
    have s0 := roundMag_nonneg (roundMag (q * 10 ^ n.toNat) + 1 / 2) (by linarith)
    have sB := roundMag_le_of_le (roundMag (q * 10 ^ n.toNat) + 1 / 2) _ (by linarith)
      (by linarith) binary64_two_pow_49_half
    obtain ⟨k0, kB⟩ := floor_sum_bounds _ s0 sB
    obtain ⟨r0, rS, -, hfl⟩ := second_pass _ _ k0 kB hS1 hS2
    rw [RoundFloat_unfused_num impl q n hq hp hb50]
    refine ⟨?_, _, r0, rfl⟩
    rw [RoundFloat_unfused_num impl _ n r0 hp rS, hfl]
  · have s0 := roundMag_nonneg (q * 10 ^ n.toNat + 1 / 2) (by linarith)
    have sB := roundMag_le_of_le (q * 10 ^ n.toNat + 1 / 2) _ (by linarith)
      (by linarith) binary64_two_pow_49_half
    obtain ⟨k0, kB⟩ := floor_sum_bounds _ s0 sB
    obtain ⟨r0, rS, hfl, -⟩ := second_pass _ _ k0 kB hS1 hS2
    rw [RoundFloat_fused_num impl q n hq hp hb50]
    refine ⟨?_, _, r0, rfl⟩
    rw [RoundFloat_fused_num impl _ n r0 hp rS, hfl]

theorem roundHalfEven_near (t : ℚ) (m : Int) (h : |t - (m : ℚ)| < 1 / 2) :
    roundHalfEven t = m := by
  rw [abs_lt] at h
  obtain ⟨h1, h2⟩ := h
  unfold roundHalfEven
  by_cases hc : (m : ℚ) ≤ t
  · have hf : ⌊t⌋ = m := by
      rw [Int.floor_eq_iff]
      constructor <;> linarith
    rw [hf, if_pos (by linarith)]
  · have hf : ⌊t⌋ = m - 1 := by
      rw [Int.floor_eq_iff]
      push_cast
      constructor <;> linarith
    rw [hf, if_neg (by push_cast; linarith), if_pos (by push_cast; linarith)]
    omega

theorem ulpExp_eq (y : ℚ) (L : Int) (hy : 0 < y) (h1 : (2 : ℚ) ^ L ≤ y)
    (h2 : y < (2 : ℚ) ^ (L + 1)) (hL : -1022 ≤ L) : ulpExp y = L - 52 := by
  have hlog : Int.log 2 y = L := by
    apply le_antisymm
    · have h : Int.log 2 y < L + 1 := by
        rw [← Int.lt_zpow_iff_log_lt (by norm_num) hy]
        exact_mod_cast h2
      omega
    · rw [← Int.zpow_le_iff_le_log (by norm_num) hy]
      exact_mod_cast h1
  unfold ulpExp
  rw [abs_of_pos hy, hlog]
  exact max_eq_left (by omega)

theorem roundMag_eval (y : ℚ) (L m : Int) (hy : 0 < y) (h1 : (2 : ℚ) ^ L ≤ y)
    (h2 : y < (2 : ℚ) ^ (L + 1)) (hL : -1022 ≤ L)
    (hm : |y / 2 ^ (L - 52) - (m : ℚ)| < 1 / 2) : roundMag y = (m : ℚ) * 2 ^ (L - 52) := by
  unfold roundMag
  rw [ulpExp_eq y L hy h1 h2 hL, roundHalfEven_near _ m hm]

theorem floor_binary64 (s : ℚ) (hs : IsBinary64 s) (h0 : 0 ≤ s) : IsBinary64 ((⌊s⌋ : Int) : ℚ) := by
  obtain ⟨m, e, hm, he1, he2, rfl⟩ := hs
  have hm0 : 0 ≤ m := by
    by_contra hc
    have hneg : (m : ℚ) < 0 := by
      have : m < 0 := by omega
      exact_mod_cast this
    have : (m : ℚ) * 2 ^ e < 0 := mul_neg_of_neg_of_pos hneg (two_zpow_pos e)
    linarith
  have hmlt : m < 9007199254740992 := lt_of_le_of_lt (le_abs_self m) hm
  by_cases hepos : 0 ≤ e
  · obtain ⟨A, hA⟩ := multiple_of_le m e 0 hepos
    rw [zpow_zero, mul_one] at hA
    rw [hA, Int.floor_intCast, ← hA]
    exact ⟨m, e, hm, he1, he2, rfl⟩
  · have hle : (m : ℚ) * 2 ^ e ≤ (m : ℚ) := by
      have h2 : (2 : ℚ) ^ e ≤ 1 := by
        have := zpow_le_zpow_right₀ (a := (2 : ℚ)) (by norm_num) (show e ≤ 0 by omega)
        simpa using this
      have hmq : (0 : ℚ) ≤ (m : ℚ) := by exact_mod_cast hm0
      nlinarith
    have hf0 : 0 ≤ ⌊(m : ℚ) * 2 ^ e⌋ := Int.floor_nonneg.mpr h0
    have hfm : ⌊(m : ℚ) * 2 ^ e⌋ ≤ m := by
      have h : ((⌊(m : ℚ) * 2 ^ e⌋ : Int) : ℚ) ≤ (m : ℚ) := le_trans (Int.floor_le _) hle
      exact_mod_cast h
    apply IsBinary64.of_int
    rw [abs_of_nonneg hf0]
    omega

theorem round64_binary64_nonneg (y : ℚ) (hy : IsBinary64 y) (h0 : 0 ≤ y) :
    round64 false y = .num y := by
  rw [round64_false_nonneg y y h0 le_rfl hy, roundMag_of_binary64 y hy]

theorem mulAdd_exact (fused : Bool) (a b : ℚ) (ha : 0 ≤ a) (hb : 0 ≤ b)
    (hab : IsBinary64 (a * b)) (hs : IsBinary64 (a * b + 1 / 2)) :
    (if fused then ffma (.num a) (.num b) (.num (1 / 2))
      else fadd (fmul (.num a) (.num b)) (.num (1 / 2))) = .num (a * b + 1 / 2) := by
  have hab0 : 0 ≤ a * b := mul_nonneg ha hb
  cases fused
  · simp only [Bool.false_eq_true, if_false]
    rw [fmul_num_nonneg a b ha hb, round64_binary64_nonneg _ hab hab0,
      fadd_num_nonneg _ _ (by norm_num), round64_binary64_nonneg _ hs (by linarith)]
  · simp only [if_true]
    rw [ffma_num_nonneg _ _ _ (by norm_num), round64_binary64_nonneg _ hs (by linarith)]

theorem binary64_two_pow_63 : IsBinary64 9223372036854775808 :=
  ⟨1, 63, by norm_num, by norm_num, by norm_num, by norm_num⟩

theorem RoundFloat_exact (fused : Bool) (impl : Float64 → Int) (q : ℚ) (n : Int) (hq : 0 ≤ q)
    (hp : (10 : Int) ^ n.toNat ≤ maxInt)
    (hprod : IsBinary64 (q * 10 ^ n.toNat)) (hsum : IsBinary64 (q * 10 ^ n.toNat + 1 / 2))
    (hr : q * 10 ^ n.toNat + 1 / 2 < 9223372036854775808) :
    RoundFloat fused impl (.num q) n =
      .num (roundMag ((⌊q * 10 ^ n.toNat + 1 / 2⌋ : ℚ) / 10 ^ n.toNat)) := by
  have hk := toNat_le_18 n hp
  obtain ⟨hS1, hS2⟩ := ten_pow_bounds _ hk
  have hS0 : (0 : ℚ) < 10 ^ n.toNat := lt_of_lt_of_le (by norm_num) hS1
  have hs0 : 0 ≤ q * 10 ^ n.toNat + 1 / 2 := by
    have := mul_nonneg hq (le_of_lt hS0)
    linarith
  have hf0 : (0 : ℚ) ≤ ((⌊q * 10 ^ n.toNat + 1 / 2⌋ : Int) : ℚ) := by
    have : (0 : Int) ≤ ⌊q * 10 ^ n.toNat + 1 / 2⌋ := Int.floor_nonneg.mpr hs0
    exact_mod_cast this
  have hfle : ((⌊q * 10 ^ n.toNat + 1 / 2⌋ : Int) : ℚ) ≤ 9223372036854775808 :=
    le_trans (Int.floor_le _) (le_of_lt hr)
  have hfb := floor_binary64 _ hsum hs0
  have hdiv : ((⌊q * 10 ^ n.toNat + 1 / 2⌋ : Int) : ℚ) / 10 ^ n.toNat ≤ 9223372036854775808 := by
    rw [div_le_iff₀ hS0]
    nlinarith
  unfold RoundFloat
  simp only [scale_eq n hp]
  rw [mulAdd_exact fused q _ hq (le_of_lt hS0) hprod hsum,
    floatToInt_num_nonneg impl _ hs0 hr]
  unfold intToFloat
  rw [round64_binary64_nonneg _ hfb hf0, fdiv_num_nonneg _ _ hf0 hS0,
    round64_false_nonneg _ _ (div_nonneg hf0 (le_of_lt hS0)) hdiv binary64_two_pow_63]

theorem RoundFloat_negZero (fused : Bool) (impl : Float64 → Int) (n : Int)
    (hp : (10 : Int) ^ n.toNat ≤ maxInt) :
    RoundFloat fused impl .negZero n = RoundFloat fused impl (.num 0) n := by
  have hk := toNat_le_18 n hp
  obtain ⟨hS1, -⟩ := ten_pow_bounds _ hk
  have hS0 : (0 : ℚ) < 10 ^ n.toNat := lt_of_lt_of_le (by norm_num) hS1
  have hhalf : IsBinary64 (1 / 2) :=
    ⟨1, -1, by norm_num, by norm_num, by norm_num, by norm_num⟩
  have hz : round64 true 0 = .negZero := by
    unfold round64
    rw [roundMag_zero]
    norm_num
  have hr : round64 false ((0 : ℚ) + 1 / 2) = .num (1 / 2) := by
    rw [zero_add]
    exact round64_binary64_nonneg _ hhalf (by norm_num)
  have h1 : (if fused then ffma .negZero (.num (10 ^ n.toNat)) (.num (1 / 2))
      else fadd (fmul .negZero (.num (10 ^ n.toNat))) (.num (1 / 2))) = .num (1 / 2) := by
    have hd : decide ((1 / 2 : ℚ) < 0) = false := decide_eq_false (by norm_num)
    have hS : decide ((10 : ℚ) ^ n.toNat < 0) = false :=
      decide_eq_false (not_lt.mpr (le_of_lt hS0))
    cases fused
    · have hm : fmul .negZero (.num (10 ^ n.toNat)) =
          round64 (xor true (decide ((10 : ℚ) ^ n.toNat < 0))) (0 * 10 ^ n.toNat) := rfl
      have ha : fadd .negZero (.num (1 / 2)) =
          round64 (true && decide ((1 / 2 : ℚ) < 0)) (0 + 1 / 2) := rfl
      simp only [Bool.false_eq_true, if_false]
      rw [hm, hS, zero_mul, Bool.xor_false, hz, ha, hd, Bool.and_false, hr]
    · have h : ffma .negZero (.num (10 ^ n.toNat)) (.num (1 / 2)) =
          round64 (xor true (decide ((10 : ℚ) ^ n.toNat < 0)) && decide ((1 / 2 : ℚ) < 0))
            (0 * 10 ^ n.toNat + 1 / 2) := rfl
      simp only [if_true]
      rw [h, hd, Bool.and_false, zero_mul, hr]
  have h2 : (if fused then ffma (.num 0) (.num (10 ^ n.toNat)) (.num (1 / 2))
      else fadd (fmul (.num 0) (.num (10 ^ n.toNat))) (.num (1 / 2))) = .num (1 / 2) := by
    have h := mulAdd_exact fused 0 (10 ^ n.toNat) le_rfl (le_of_lt hS0)
      (by rw [zero_mul]; exact ⟨0, 0, by norm_num, by norm_num, by norm_num, by norm_num⟩)
      (by rw [zero_mul, zero_add]; exact hhalf)
    rw [zero_mul, zero_add] at h
    exact h
  unfold RoundFloat
  simp only [scale_eq n hp]
  rw [h1, h2]

theorem roundHalfEven_tie (f : Int) :
    roundHalfEven ((f : ℚ) + 1 / 2) = if f % 2 = 0 then f else f + 1 := by
  have hf : ⌊(f : ℚ) + 1 / 2⌋ = f := by
    rw [Int.floor_eq_iff]
    constructor <;> linarith
  unfold roundHalfEven
  rw [hf, if_neg (by norm_num), if_neg (by norm_num)]

/-- Counterexample to C12 as stated: for `x = 0.49999999999999994` (the binary64
value `0.5 - 2^-54`) and `n = 0`, the sum `x + 0.5` is half-way between two
binary64 values and rounds to `1`, so `RoundFloat` returns `1`, where
`floor (x + 1/2) = 0` and `1 - 1/2 ≤ x` fails. -/
theorem RoundFloat_half_up_counterexample :
    IsBinary64 (9007199254740991 / 18014398509481984) ∧
    (0 : ℚ) ≤ 9007199254740991 / 18014398509481984 ∧
    (10 : Int) ^ (0 : Nat) ≤ maxInt ∧
    (∀ (fused : Bool) (impl : Float64 → Int),
      RoundFloat fused impl (.num (9007199254740991 / 18014398509481984)) 0 = .num 1) ∧
    (⌊(9007199254740991 / 18014398509481984 : ℚ) * 10 ^ (0 : Nat) + 1 / 2⌋ : ℚ) /
      10 ^ (0 : Nat) = 0 ∧
    ¬ ((1 : ℚ) - 1 / (2 * 10 ^ (0 : Nat)) ≤ 9007199254740991 / 18014398509481984) := by
  have bx : IsBinary64 (9007199254740991 / 18014398509481984) :=
    binary64_small 9007199254740991 (-54) _ (by norm_num) (by norm_num) (by norm_num)
      (by norm_num)
  have hx0 : (0 : ℚ) ≤ 9007199254740991 / 18014398509481984 := by norm_num
  have htie : roundMag (18014398509481983 / 18014398509481984) = 1 := by
    have hu : ulpExp (18014398509481983 / 18014398509481984) = -1 - 52 :=
      ulpExp_eq _ (-1) (by norm_num) (by norm_num) (by norm_num) (by norm_num)
    have ht : (18014398509481983 / 18014398509481984 : ℚ) / 2 ^ (-1 - 52 : Int) =
        ((9007199254740991 : Int) : ℚ) + 1 / 2 := by
      norm_num
    unfold roundMag
    rw [hu, ht, roundHalfEven_tie, if_neg (by decide)]
    norm_num
  have h1b : IsBinary64 1 := binary64_small 1 0 _ (by norm_num) (by norm_num) (by norm_num)
    (by norm_num)
  have hfl : ⌊(1 : ℚ)⌋ = 1 := Int.floor_one
  have t0 : (0 : Int).toNat = 0 := rfl
  refine ⟨bx, hx0, by decide, ?_, ?_, by norm_num⟩
  · intro fused impl
    cases fused
    · have h := RoundFloat_unfused_num impl _ 0 hx0 (by decide) (by rw [t0]; norm_num)
      rw [h, t0, pow_zero, mul_one, roundMag_of_binary64 _ bx]
      have e : (9007199254740991 / 18014398509481984 : ℚ) + 1 / 2 =
          18014398509481983 / 18014398509481984 := by norm_num
      rw [e, htie, hfl, Int.cast_one, div_one, roundMag_of_binary64 _ h1b]
    · have h := RoundFloat_fused_num impl _ 0 hx0 (by decide) (by rw [t0]; norm_num)
      rw [h, t0, pow_zero, mul_one]
      have e : (9007199254740991 / 18014398509481984 : ℚ) + 1 / 2 =
          18014398509481983 / 18014398509481984 := by norm_num
      rw [e, htie, hfl, Int.cast_one, div_one, roundMag_of_binary64 _ h1b]
  · have hf : ⌊(9007199254740991 / 18014398509481984 : ℚ) * 10 ^ (0 : Nat) + 1 / 2⌋ = 0 := by
      rw [Int.floor_eq_iff]
      norm_num
    rw [hf]
    norm_num

theorem literal_3_14159 :
    roundMag (314159 / 100000) = 3537115888337719 / 1125899906842624 := by
  rw [roundMag_eval _ 1 7074231776675438 (by norm_num) (by norm_num) (by norm_num)
    (by norm_num) (by rw [abs_lt]; norm_num)]
  norm_num

theorem literal_3_14 : roundMag (314 / 100) = 7070651414971679 / 2251799813685248 := by
  rw [roundMag_eval _ 1 7070651414971679 (by norm_num) (by norm_num) (by norm_num)
    (by norm_num) (by rw [abs_lt]; norm_num)]
  norm_num

theorem RoundFloat_example (fused : Bool) (impl : Float64 → Int) :
    RoundFloat fused impl (.num (3537115888337719 / 1125899906842624)) 2 =
      .num (7070651414971679 / 2251799813685248) := by
  have t2 : (2 : Int).toNat = 2 := rfl
  have hx0 : (0 : ℚ) ≤ 3537115888337719 / 1125899906842624 := by norm_num
  have hprod : roundMag (3537115888337719 / 1125899906842624 * 10 ^ 2) =
      2763371787763843 / 8796093022208 := by
    rw [roundMag_eval _ 8 5526743575527686 (by norm_num) (by norm_num) (by norm_num)
      (by norm_num) (by rw [abs_lt]; norm_num)]
    norm_num
  have hsumb : IsBinary64 (2767769834274947 / 8796093022208) :=
    binary64_small 5535539668549894 (-44) _ (by norm_num) (by norm_num) (by norm_num)
      (by norm_num)
  have hfused : roundMag (3537115888337719 / 1125899906842624 * 10 ^ 2 + 1 / 2) =
      2767769834274947 / 8796093022208 := by
    rw [roundMag_eval _ 8 5535539668549894 (by norm_num) (by norm_num) (by norm_num)
      (by norm_num) (by rw [abs_lt]; norm_num)]
    norm_num
  have hfl : ⌊(2767769834274947 / 8796093022208 : ℚ)⌋ = 314 := by
    rw [Int.floor_eq_iff]
    norm_num
  have hq : ((314 : Int) : ℚ) / 10 ^ 2 = 314 / 100 := by norm_num
  cases fused
  · have h := RoundFloat_unfused_num impl _ 2 hx0 (by decide) (by rw [t2]; norm_num)
    rw [h, t2, hprod]
    have e : (2763371787763843 / 8796093022208 : ℚ) + 1 / 2 =
        2767769834274947 / 8796093022208 := by norm_num
    rw [e, roundMag_of_binary64 _ hsumb, hfl, hq, literal_3_14]
  · have h := RoundFloat_fused_num impl _ 2 hx0 (by decide) (by rw [t2]; norm_num)
    rw [h, t2, hfused, hfl, hq, literal_3_14]

/-- C12 (amended): for every finite `x ≥ 0` and every `n ≥ 0` for which `10 ^ n`
does not overflow, whenever the product `x * 10 ^ n` and the sum
`x * 10 ^ n + 1/2` are binary64 values (so that neither is rounded) below `2 ^ 63`,
`RoundFloat x n` is the binary64 rounding of `q = floor (x * 10 ^ n + 1/2) / 10 ^ n`,
within `q * 2 ^ -53` of `q`, where `q * 10 ^ n` is an integer and
`q - 1/(2 * 10 ^ n) ≤ x < q + 1/(2 * 10 ^ n)`; `RoundFloat (-0) n` is `0`.  On the
binary64 values nearest to
`3.14159` and `3.14`, `RoundFloat 3.14159 2 = 3.14`. -/
theorem RoundFloat_half_up (fused : Bool) (impl : Float64 → Int) (q : ℚ) (n : Nat)
    (hq : 0 ≤ q) (hp : (10 : Int) ^ n ≤ maxInt)
    (hprod : IsBinary64 (q * 10 ^ n)) (hsum : IsBinary64 (q * 10 ^ n + 1 / 2))
    (hr : q * 10 ^ n + 1 / 2 < 9223372036854775808) :
    RoundFloat fused impl (.num q) (n : Int) =
      .num (roundMag ((⌊q * 10 ^ n + 1 / 2⌋ : ℚ) / 10 ^ n)) ∧
    |roundMag ((⌊q * 10 ^ n + 1 / 2⌋ : ℚ) / 10 ^ n) - (⌊q * 10 ^ n + 1 / 2⌋ : ℚ) / 10 ^ n| ≤
      (⌊q * 10 ^ n + 1 / 2⌋ : ℚ) / 10 ^ n * 2 ^ (-53 : Int) ∧
    (⌊q * 10 ^ n + 1 / 2⌋ : ℚ) / 10 ^ n * 10 ^ n = (⌊q * 10 ^ n + 1 / 2⌋ : ℚ) ∧
    (⌊q * 10 ^ n + 1 / 2⌋ : ℚ) / 10 ^ n - 1 / (2 * 10 ^ n) ≤ q ∧
    q < (⌊q * 10 ^ n + 1 / 2⌋ : ℚ) / 10 ^ n + 1 / (2 * 10 ^ n) ∧
    RoundFloat fused impl .negZero (n : Int) = .num 0 ∧
    roundMag (314159 / 100000) = 3537115888337719 / 1125899906842624 ∧
    roundMag (314 / 100) = 7070651414971679 / 2251799813685248 ∧
    RoundFloat fused impl (.num (3537115888337719 / 1125899906842624)) 2 =
      .num (7070651414971679 / 2251799813685248) := by
  have hk : n ≤ 18 := by
    have h := toNat_le_18 (n : Int) (by rw [Int.toNat_ofNat]; exact hp)
    rw [Int.toNat_ofNat] at h
    exact h
  obtain ⟨hS1, hS2⟩ := ten_pow_bounds n hk
  have hS : (0 : ℚ) < 10 ^ n := lt_of_lt_of_le (by norm_num) hS1
  have h0 : 0 ≤ q * 10 ^ n + 1 / 2 := by
    have := mul_nonneg hq (le_of_lt hS)
    linarith
  have hK0 : (0 : Int) ≤ ⌊q * 10 ^ n + 1 / 2⌋ := Int.floor_nonneg.mpr h0
  have hle : (⌊q * 10 ^ n + 1 / 2⌋ : ℚ) ≤ q * 10 ^ n + 1 / 2 := Int.floor_le _
  have hlt : q * 10 ^ n + 1 / 2 < (⌊q * 10 ^ n + 1 / 2⌋ : ℚ) + 1 := Int.lt_floor_add_one _
  have hR := RoundFloat_exact fused impl q (n : Int)
  rw [Int.toNat_ofNat] at hR
  have hzero : RoundFloat fused impl .negZero (n : Int) = .num 0 := by
    have hf : ⌊(0 : ℚ) * 10 ^ n + 1 / 2⌋ = 0 := by
      rw [zero_mul, zero_add, Int.floor_eq_iff]
      norm_num
    have hE := RoundFloat_exact fused impl 0 (n : Int)
    rw [Int.toNat_ofNat] at hE
    rw [RoundFloat_negZero fused impl n (by rw [Int.toNat_ofNat]; exact hp),
      hE le_rfl hp
        (by rw [zero_mul]; exact ⟨0, 0, by norm_num, by norm_num, by norm_num, by norm_num⟩)
        (by rw [zero_mul, zero_add]
            exact ⟨1, -1, by norm_num, by norm_num, by norm_num, by norm_num⟩)
        (by rw [zero_mul]; norm_num),
      hf, Int.cast_zero, zero_div, roundMag_zero]
  refine ⟨hR hq hp hprod hsum hr, ?_, ?_, ?_, ?_, hzero, literal_3_14159, literal_3_14,
    RoundFloat_example fused impl⟩
  · by_cases hz : ⌊q * 10 ^ n + 1 / 2⌋ = 0
    · rw [hz, Int.cast_zero, zero_div, roundMag_zero]
      norm_num
    · apply roundMag_rel_error
      apply tiny_le
      have hK1 : (1 : ℚ) ≤ (⌊q * 10 ^ n + 1 / 2⌋ : ℚ) := by
        have : 1 ≤ ⌊q * 10 ^ n + 1 / 2⌋ := by omega
        exact_mod_cast this
      rw [le_div_iff₀ hS]
      have h : (1 : ℚ) / 1000000000000000000 * 10 ^ n ≤ 1 := by
        rw [div_mul_eq_mul_div, div_le_iff₀ (by norm_num)]
        linarith
      linarith
  · rw [div_mul_cancel₀ _ (ne_of_gt hS)]
  · have e : ∀ K : ℚ, K / 10 ^ n - 1 / (2 * 10 ^ n) = (K - 1 / 2) / 10 ^ n := by
      intro K
      field_simp
      ring
    rw [e, div_le_iff₀ hS]
    linarith
  · have e : ∀ K : ℚ, K / 10 ^ n + 1 / (2 * 10 ^ n) = (K + 1 / 2) / 10 ^ n := by
      intro K
      field_simp
      ring
    rw [e, lt_div_iff₀ hS]
    linarith

theorem RoundFloat_half_up_witness :
    (0 : ℚ) ≤ 5 / 2 ∧ (10 : Int) ^ 0 ≤ maxInt ∧ IsBinary64 (5 / 2 * 10 ^ 0) ∧
    IsBinary64 (5 / 2 * 10 ^ 0 + 1 / 2) ∧
    RoundFloat false (fun _ => 0) (.num (5 / 2)) ((0 : Nat) : Int) =
      .num (roundMag ((⌊(5 / 2 : ℚ) * 10 ^ 0 + 1 / 2⌋ : ℚ) / 10 ^ 0)) :=
  ⟨by norm_num, by decide,
    binary64_small 5 (-1) _ (by norm_num) (by norm_num) (by norm_num) (by norm_num),
    binary64_small 3 0 _ (by norm_num) (by norm_num) (by norm_num) (by norm_num),
    (RoundFloat_half_up false (fun _ => 0) (5 / 2) 0 (by norm_num) (by decide)
      (binary64_small 5 (-1) _ (by norm_num) (by norm_num) (by norm_num) (by norm_num))
      (binary64_small 3 0 _ (by norm_num) (by norm_num) (by norm_num) (by norm_num))
      (by norm_num)).1⟩

theorem RoundFloat_unfused_eval (impl : Float64 → Int) (q S p s r : ℚ) (k n : Int)
    (hscale : intToFloat (PowInt 10 n) = .num S) (hq : 0 ≤ q) (hS : 0 < S)
    (hpb : q * S ≤ 9223372036854775808) (hp : roundMag (q * S) = p)
    (hs : roundMag (p + 1 / 2) = s) (hsb : s < 9223372036854775808)
    (hk : ⌊s⌋ = k) (hkb : IsBinary64 (k : ℚ)) (hr : roundMag ((k : ℚ) / S) = r)
    (hrb : (k : ℚ) / S ≤ 9223372036854775808) :
    RoundFloat false impl (.num q) n = .num r := by
  have hqS : 0 ≤ q * S := mul_nonneg hq (le_of_lt hS)
  have hp0 : 0 ≤ p := hp ▸ roundMag_nonneg _ hqS
  have hpB : p ≤ 9223372036854775808 :=
    hp ▸ roundMag_le_of_le _ _ hqS hpb binary64_two_pow_63
  have hsum0 : 0 ≤ p + 1 / 2 := by linarith
  have hs0 : 0 ≤ s := hs ▸ roundMag_nonneg _ hsum0
  have hpe : round64 false (q * S) = .num p := by
    rw [round64_false_nonneg _ _ hqS hpb binary64_two_pow_63, hp]
  have hse : round64 false (p + 1 / 2) = .num s := by
    have hb : IsBinary64 18446744073709551616 :=
      ⟨1, 64, by norm_num, by norm_num, by norm_num, by norm_num⟩
    rw [round64_false_nonneg _ 18446744073709551616 hsum0 (by linarith) hb, hs]
  have hk0 : (0 : ℚ) ≤ (k : ℚ) := by
    have : (0 : Int) ≤ k := hk ▸ Int.floor_nonneg.mpr hs0
    exact_mod_cast this
  unfold RoundFloat
  simp only [hscale, Bool.false_eq_true, if_false]
  rw [fmul_num_nonneg _ _ hq (le_of_lt hS), hpe, fadd_num_nonneg _ _ (by norm_num), hse,
    floatToInt_num_nonneg impl _ hs0 hsb, hk]
  unfold intToFloat
  rw [round64_binary64_nonneg _ hkb hk0, fdiv_num_nonneg _ _ hk0 hS,
    round64_false_nonneg _ _ (div_nonneg hk0 (le_of_lt hS)) hrb binary64_two_pow_63, hr]

theorem roundMag_tie_eval (f : Int) (hf : 4503599627370496 ≤ f) (hf2 : f < 9007199254740992) :
    roundMag ((f : ℚ) + 1 / 2) = ((if f % 2 = 0 then f else f + 1 : Int) : ℚ) := by
  have hfq : (4503599627370496 : ℚ) ≤ (f : ℚ) := by exact_mod_cast hf
  have hfq2 : (f : ℚ) < 9007199254740992 := by exact_mod_cast hf2
  have hf3 : (f : ℚ) + 1 ≤ 9007199254740992 := by
    have : f + 1 ≤ 9007199254740992 := by omega
    exact_mod_cast this
  have hu : ulpExp ((f : ℚ) + 1 / 2) = 52 - 52 :=
    ulpExp_eq _ 52 (by linarith) (by norm_num; linarith) (by norm_num; linarith) (by norm_num)
  unfold roundMag
  rw [hu, sub_self, zpow_zero, div_one, mul_one, roundHalfEven_tie]

theorem RoundFloat_large_not_idempotent (impl : Float64 → Int) :
    RoundFloat false impl (.num (5575948332741561 / 64)) 2 = .num (2787974166370781 / 32) ∧
    RoundFloat false impl (.num (2787974166370781 / 32)) 2 = .num (5575948332741563 / 64) := by
  have hscale : intToFloat (PowInt 10 2) = .num 100 := by
    have h := scale_eq 2 (by decide)
    rw [show (2 : Int).toNat = 2 from rfl] at h
    rw [h]
    norm_num
  constructor
  · apply RoundFloat_unfused_eval impl _ 100 8712419269908689 8712419269908690 _
      8712419269908690 2 hscale (by norm_num) (by norm_num) (by norm_num)
    · rw [roundMag_eval _ 52 8712419269908689 (by norm_num) (by norm_num) (by norm_num)
        (by norm_num) (by rw [abs_lt]; norm_num)]
      norm_num
    · have h := roundMag_tie_eval 8712419269908689 (by norm_num) (by norm_num)
      rw [if_neg (by decide)] at h
      push_cast at h
      rw [h]
    · norm_num
    · rw [Int.floor_eq_iff]
      norm_num
    · exact IsBinary64.of_int _ (by norm_num)
    · rw [roundMag_eval _ 46 5575948332741562 (by norm_num) (by norm_num) (by norm_num)
        (by norm_num) (by rw [abs_lt]; norm_num)]
      norm_num
    · norm_num
  · apply RoundFloat_unfused_eval impl _ 100 8712419269908691 8712419269908692 _
      8712419269908692 2 hscale (by norm_num) (by norm_num) (by norm_num)
    · rw [roundMag_eval _ 52 8712419269908691 (by norm_num) (by norm_num) (by norm_num)
        (by norm_num) (by rw [abs_lt]; norm_num)]
      norm_num
    · have h := roundMag_tie_eval 8712419269908691 (by norm_num) (by norm_num)
      rw [if_neg (by decide)] at h
      push_cast at h
      rw [h]
    · norm_num
    · rw [Int.floor_eq_iff]
      norm_num
    · exact IsBinary64.of_int _ (by norm_num)
    · rw [roundMag_eval _ 46 5575948332741563 (by norm_num) (by norm_num) (by norm_num)
        (by norm_num) (by rw [abs_lt]; norm_num)]
      norm_num
    · norm_num

/-- Counterexample to C11 as stated.  For a negative input: `RoundFloat(-1.5, 0)`
is `-1` and `RoundFloat(-1, 0)` is `0`, the conversion to `int` truncating `-0.5`
toward zero, with and without fusing.  For a large non-negative input, without
fusing: `RoundFloat(87124192699086.890625, 2)` is `87124192699086.90625`, and
rounding that again gives `87124192699086.921875`, because the product with
`100` and the sum with `0.5` are rounded. -/
theorem RoundFloat_not_idempotent_counterexample :
    (IsBinary64 (-3 / 2) ∧
      ∀ (fused : Bool) (impl : Float64 → Int),
        RoundFloat fused impl (.num (-3 / 2)) 0 = .num (-1) ∧
        RoundFloat fused impl (.num (-1)) 0 = .num 0 ∧
        floatEq (RoundFloat fused impl (RoundFloat fused impl (.num (-3 / 2)) 0) 0)
          (RoundFloat fused impl (.num (-3 / 2)) 0) = false) ∧
    (IsBinary64 (5575948332741561 / 64) ∧ (0 : ℚ) ≤ 5575948332741561 / 64 ∧
      (10 : Int) ^ (2 : Int).toNat ≤ maxInt ∧
      ∀ impl : Float64 → Int,
        RoundFloat false impl (.num (5575948332741561 / 64)) 2 =
          .num (2787974166370781 / 32) ∧
        RoundFloat false impl (.num (2787974166370781 / 32)) 2 =
          .num (5575948332741563 / 64) ∧
        floatEq (RoundFloat false impl (RoundFloat false impl
            (.num (5575948332741561 / 64)) 2) 2)
          (RoundFloat false impl (.num (5575948332741561 / 64)) 2) = false) := by
  obtain ⟨b, r1, r2, -, r4⟩ := RoundFloat_neg_three_halves
  refine ⟨⟨b, fun fused impl => ⟨r1 fused impl, r2 fused impl, r4 fused impl⟩⟩, ?_, ?_, ?_, ?_⟩
  · exact binary64_small 5575948332741561 (-6) _ (by norm_num) (by norm_num) (by norm_num)
      (by norm_num)
  · norm_num
  · decide
  · intro impl
    obtain ⟨h1, h2⟩ := RoundFloat_large_not_idempotent impl
    refine ⟨h1, h2, ?_⟩
    rw [h1, h2]
    simp only [floatEq, Float64.isNan, Float64.isZero]
    norm_num

/-- C11 (amended): for every finite `x ≥ 0` (the value `num q` with `q ≥ 0`, or
`-0`) and every digit count `n` for which `10 ^ n` does not overflow and
`x * 10 ^ n ≤ 2 ^ 49`, rounding twice is rounding once, in binary64 arithmetic
with or without fusing, and the result is a finite non-negative value. -/
theorem RoundFloat_idempotent (fused : Bool) (impl : Float64 → Int) (q : ℚ) (n : Int)
    (hq : 0 ≤ q) (hp : (10 : Int) ^ n.toNat ≤ maxInt)
    (hb : q * 10 ^ n.toNat ≤ 562949953421312) :
    RoundFloat fused impl (RoundFloat fused impl (.num q) n) n =
      RoundFloat fused impl (.num q) n ∧
    floatEq (RoundFloat fused impl (RoundFloat fused impl (.num q) n) n)
      (RoundFloat fused impl (.num q) n) = true ∧
    (∃ r : ℚ, 0 ≤ r ∧ RoundFloat fused impl (.num q) n = .num r) ∧
    RoundFloat fused impl (RoundFloat fused impl .negZero n) n =
      RoundFloat fused impl .negZero n := by
  obtain ⟨h1, r, hr0, hr⟩ := RoundFloat_twice_num fused impl q n hq hp hb
  refine ⟨h1, ?_, ⟨r, hr0, hr⟩, ?_⟩
  · rw [h1, hr]
    simp [floatEq, Float64.isNan]
  · rw [RoundFloat_negZero fused impl n hp]
    exact (RoundFloat_twice_num fused impl 0 n le_rfl hp (by rw [zero_mul]; norm_num)).1

theorem RoundFloat_idempotent_witness :
    (0 : ℚ) ≤ 5 / 2 ∧ (10 : Int) ^ (0 : Int).toNat ≤ maxInt ∧
    (5 / 2 : ℚ) * 10 ^ (0 : Int).toNat ≤ 562949953421312 ∧
    RoundFloat false (fun _ => 0) (RoundFloat false (fun _ => 0) (.num (5 / 2)) 0) 0 =
      RoundFloat false (fun _ => 0) (.num (5 / 2)) 0 :=
  ⟨by norm_num, by decide, by norm_num,
    (RoundFloat_idempotent false (fun _ => 0) (5 / 2) 0 (by norm_num) (by decide)
      (by norm_num)).1⟩

end Playground
